import Mathlib

/-!
Verification of the title-normalisation core of `python-spacy-bibtex-cleaner`
(`main.py`).

The embedding works over `List Char`.  Python strings are modelled as lists of
characters; the ASCII-range behaviour of Python's `str.lower` / `str.upper`
and of the character classes `[A-Za-z]`, `[0-9]`, `\w`, `\s` used by the
regexes in `main.py` is modelled with Lean's `Char.toLower` / `Char.toUpper`
and explicit predicates (both agree with Python on the ASCII range, which is
the range the regexes in the source are written for).

The spaCy named-entity recogniser is an external collaborator; it is modelled
as a function parameter `nlp : List Char → List Ent` producing labelled
character-offset spans, exactly the data `brace_entities` reads off `doc.ents`.

Regex-based source functions are embedded by their operational behaviour:
  * `re.split(r"(\{.*?\})", text, DOTALL)`  — repeatedly find the first `'{'`
    and the first `'}'` after it (non-greedy, leftmost match), emitting the
    text before the match, the match, and recursing on the remainder;
  * `_ACRONYM_TOKEN_RE.sub` — the pattern `\b([A-Z0-9]{2,}|(?=\w*\d)\w+)\b`
    matches exactly the maximal `\w`-runs that are either all upper/digit of
    length ≥ 2 or contain a digit (a shorter candidate inside a run always
    fails the trailing `\b`), so the substitution is modelled as a scan over
    maximal word runs;
  * `re.sub(r"^([^A-Za-z0-9]*)([A-Za-z])", …, count=1)` — matches iff the
    character following the maximal leading non-alphanumeric run is a letter;
  * `re.sub(r"(:\s*)([A-Za-z])", …)` — at each `':'`, if the character after
    the maximal whitespace run is a letter it is upper-cased, and scanning
    resumes after that letter; otherwise scanning resumes after the `':'`.

Recursive scanners are defined with an explicit fuel argument (the input
length bounds the recursion depth) so that every definition is structurally
recursive and kernel-reducible.
-/

/-! ## Character groundwork -/

/-- `a = b` iff their code points agree. -/
theorem char_toNat_inj {a b : Char} (h : a.toNat = b.toNat) : a = b :=
  Char.ext (UInt32.toNat.inj h)

/-- Round-trip for code points below the surrogate range. -/
theorem char_toNat_ofNat {n : Nat} (h : n < 55296) : (Char.ofNat n).toNat = n := by
  have hv : n.isValidChar := Or.inl h
  simp [Char.ofNat, dif_pos hv, Char.ofNatAux, Char.toNat, UInt32.toNat]

theorem char_isUpper_iff (c : Char) :
    c.isUpper = true ↔ (65 ≤ c.toNat ∧ c.toNat ≤ 90) := by
  simp [Char.isUpper, Char.le_def, Char.toNat, UInt32.le_def, BitVec.le_def, UInt32.toNat]

theorem char_isLower_iff (c : Char) :
    c.isLower = true ↔ (97 ≤ c.toNat ∧ c.toNat ≤ 122) := by
  simp [Char.isLower, Char.le_def, Char.toNat, UInt32.le_def, BitVec.le_def, UInt32.toNat]

theorem char_isDigit_iff (c : Char) :
    c.isDigit = true ↔ (48 ≤ c.toNat ∧ c.toNat ≤ 57) := by
  simp [Char.isDigit, Char.le_def, Char.toNat, UInt32.le_def, BitVec.le_def, UInt32.toNat]

theorem char_isAlpha_iff (c : Char) :
    c.isAlpha = true ↔ ((65 ≤ c.toNat ∧ c.toNat ≤ 90) ∨ (97 ≤ c.toNat ∧ c.toNat ≤ 122)) := by
  simp [Char.isAlpha, char_isUpper_iff, char_isLower_iff]

/-- Behaviour of `Char.toLower`: shift upper-case ASCII down by 32, fix
everything else. -/
theorem toLower_spec (c : Char) :
    (65 ≤ c.toNat ∧ c.toNat ≤ 90 ∧ (Char.toLower c).toNat = c.toNat + 32) ∨
    (¬(65 ≤ c.toNat ∧ c.toNat ≤ 90) ∧ Char.toLower c = c) := by
  by_cases h : 65 ≤ c.toNat ∧ c.toNat ≤ 90
  · left
    refine ⟨h.1, h.2, ?_⟩
    have : Char.toLower c = Char.ofNat (c.toNat + 32) := by
      simp [Char.toLower, if_pos (And.intro h.1 h.2)]
    rw [this, char_toNat_ofNat (by omega)]
  · right
    refine ⟨h, ?_⟩
    simp only [Char.toLower]
    rw [if_neg (by omega)]

/-- Behaviour of `Char.toUpper`: shift lower-case ASCII up by 32, fix
everything else. -/
theorem toUpper_spec (c : Char) :
    (97 ≤ c.toNat ∧ c.toNat ≤ 122 ∧ (Char.toUpper c).toNat = c.toNat - 32) ∨
    (¬(97 ≤ c.toNat ∧ c.toNat ≤ 122) ∧ Char.toUpper c = c) := by
  by_cases h : 97 ≤ c.toNat ∧ c.toNat ≤ 122
  · left
    refine ⟨h.1, h.2, ?_⟩
    have : Char.toUpper c = Char.ofNat (c.toNat - 32) := by
      simp [Char.toUpper, if_pos (And.intro h.1 h.2)]
    rw [this, char_toNat_ofNat (by omega)]
  · right
    refine ⟨h, ?_⟩
    simp only [Char.toUpper]
    rw [if_neg (by omega)]

theorem toLower_toLower (c : Char) : Char.toLower (Char.toLower c) = Char.toLower c := by
  rcases toLower_spec c with ⟨h1, h2, h3⟩ | ⟨h, h2⟩
  · rcases toLower_spec (Char.toLower c) with ⟨g1, g2, _⟩ | ⟨_, g2⟩
    · omega
    · exact g2
  · rw [h2, h2]

theorem toLower_toUpper (c : Char) : Char.toLower (Char.toUpper c) = Char.toLower c := by
  rcases toUpper_spec c with ⟨h1, h2, h3⟩ | ⟨h, h2⟩
  · rcases toLower_spec (Char.toUpper c) with ⟨g1, g2, g3⟩ | ⟨g1, g2⟩
    · -- toUpper c is upper-case ASCII; lowering it shifts back up by 32
      apply char_toNat_inj
      rcases toLower_spec c with ⟨k1, k2, _⟩ | ⟨k1, k2⟩
      · omega
      · rw [k2]; omega
    · omega
  · rw [h2]

theorem toUpper_toUpper (c : Char) : Char.toUpper (Char.toUpper c) = Char.toUpper c := by
  rcases toUpper_spec c with ⟨h1, h2, h3⟩ | ⟨h, h2⟩
  · rcases toUpper_spec (Char.toUpper c) with ⟨g1, g2, _⟩ | ⟨_, g2⟩
    · omega
    · exact g2
  · rw [h2, h2]

theorem isAlpha_toLower (c : Char) : (Char.toLower c).isAlpha = c.isAlpha := by
  rcases toLower_spec c with ⟨h1, h2, h3⟩ | ⟨h, h2⟩
  · have l : (Char.toLower c).isAlpha = true := (char_isAlpha_iff _).mpr (Or.inr (by omega))
    have r : c.isAlpha = true := (char_isAlpha_iff _).mpr (Or.inl ⟨h1, h2⟩)
    rw [l, r]
  · rw [h2]

theorem isAlpha_toUpper (c : Char) : (Char.toUpper c).isAlpha = c.isAlpha := by
  rcases toUpper_spec c with ⟨h1, h2, h3⟩ | ⟨h, h2⟩
  · have l : (Char.toUpper c).isAlpha = true := (char_isAlpha_iff _).mpr (Or.inl (by omega))
    have r : c.isAlpha = true := (char_isAlpha_iff _).mpr (Or.inr ⟨h1, h2⟩)
    rw [l, r]
  · rw [h2]

/-- Classify a character as open marker / close marker / other.  The brace
split of a string is entirely determined by this classification. -/
def braceClass (c : Char) : Nat :=
  if c = '{' then 0 else if c = '}' then 1 else 2

theorem braceClass_eq_zero {c : Char} (h : braceClass c = 0) : c = '{' := by
  by_cases h1 : c = '{'
  · exact h1
  · by_cases h2 : c = '}' <;> simp [braceClass, h1, h2] at h

theorem braceClass_eq_one {c : Char} (h : braceClass c = 1) : c = '}' := by
  by_cases h1 : c = '{'
  · simp [braceClass, h1] at h
  · by_cases h2 : c = '}'
    · exact h2
    · simp [braceClass, h1, h2] at h

theorem char_toNat_eq_iff {c d : Char} : c = d ↔ c.toNat = d.toNat :=
  ⟨fun h => by rw [h], char_toNat_inj⟩

theorem toNat_lbrace : ('{' : Char).toNat = 123 := by decide

theorem toNat_rbrace : ('}' : Char).toNat = 125 := by decide

theorem braceClass_eq_two {c : Char} (h1 : c.toNat ≠ 123) (h2 : c.toNat ≠ 125) :
    braceClass c = 2 := by
  have e1 : c ≠ '{' := fun h => h1 (by rw [h, toNat_lbrace])
  have e2 : c ≠ '}' := fun h => h2 (by rw [h, toNat_rbrace])
  simp [braceClass, e1, e2]

theorem braceClass_toLower (c : Char) : braceClass (Char.toLower c) = braceClass c := by
  rcases toLower_spec c with ⟨h1, h2, h3⟩ | ⟨h, h2⟩
  · rw [braceClass_eq_two (by omega) (by omega),
      braceClass_eq_two (c := c) (by omega) (by omega)]
  · rw [h2]

theorem braceClass_toUpper (c : Char) : braceClass (Char.toUpper c) = braceClass c := by
  rcases toUpper_spec c with ⟨h1, h2, h3⟩ | ⟨h, h2⟩
  · rw [braceClass_eq_two (by omega) (by omega),
      braceClass_eq_two (c := c) (by omega) (by omega)]
  · rw [h2]

/-- Python's `\s` (ASCII range): space, tab, newline, carriage return,
vertical tab, form feed. -/
def isSpaceChar (c : Char) : Bool :=
  c = ' ' || c = '\t' || c = '\n' || c = '\r' || c = '\x0b' || c = '\x0c'

/-- Python's `\w` (ASCII range): letters, digits, underscore. -/
def isWordChar (c : Char) : Bool :=
  c.isAlphanum || c = '_'

/-- The character class `[A-Z0-9]` of `_ACRONYM_TOKEN_RE`. -/
def isUpperDigit (c : Char) : Bool :=
  c.isUpper || c.isDigit

theorem isSpaceChar_toNat {c : Char} (h : isSpaceChar c = true) :
    c.toNat = 32 ∨ c.toNat = 9 ∨ c.toNat = 10 ∨ c.toNat = 13 ∨ c.toNat = 11 ∨ c.toNat = 12 := by
  simp only [isSpaceChar, Bool.or_eq_true, decide_eq_true_eq] at h
  rcases h with ((((h | h) | h) | h) | h) | h <;> rw [h] <;> simp

theorem isAlpha_not_space {c : Char} (h : c.isAlpha = true) : isSpaceChar c = false := by
  cases hs : isSpaceChar c
  · rfl
  · exfalso
    have h1 := (char_isAlpha_iff c).mp h
    have h2 := isSpaceChar_toNat hs
    omega

theorem toNat_colon : (':' : Char).toNat = 58 := by decide

theorem isAlpha_ne_colon {c : Char} (h : c.isAlpha = true) : c ≠ ':' := by
  intro hc
  have h1 := (char_isAlpha_iff c).mp h
  rw [hc, toNat_colon] at h1
  omega

/-! ## Generic scanner: first occurrence of a character -/

/-- Split `l` at the first occurrence of `x` (the occurrence itself removed):
`breakAtP x l = some (pre, post)` iff `l = pre ++ x :: post` with `x ∉ pre`. -/
def breakAtP {α : Type} [DecidableEq α] (x : α) : List α → Option (List α × List α)
  | [] => none
  | a :: as =>
    if a = x then some ([], as)
    else match breakAtP x as with
      | none => none
      | some (pre, post) => some (a :: pre, post)

theorem breakAtP_eq_some {α : Type} [DecidableEq α] {x : α} :
    ∀ {l pre post : List α}, breakAtP x l = some (pre, post) →
      l = pre ++ x :: post ∧ x ∉ pre := by
  intro l
  induction l with
  | nil => intro pre post h; simp [breakAtP] at h
  | cons a as ih =>
    intro pre post h
    by_cases ha : a = x
    · subst ha
      simp [breakAtP] at h
      obtain ⟨hp, hq⟩ := h
      subst hp
      subst hq
      exact ⟨rfl, by simp⟩
    · simp only [breakAtP, if_neg ha] at h
      cases hb : breakAtP x as with
      | none => rw [hb] at h; simp at h
      | some pq =>
        obtain ⟨p, q⟩ := pq
        rw [hb] at h
        simp at h
        obtain ⟨hp, hq⟩ := ih hb
        rw [← h.1, ← h.2, hp]
        refine ⟨rfl, ?_⟩
        simp [hq]
        exact fun hx => ha hx.symm

theorem breakAtP_eq_none {α : Type} [DecidableEq α] {x : α} :
    ∀ {l : List α}, breakAtP x l = none → x ∉ l := by
  intro l
  induction l with
  | nil => intro _; simp
  | cons a as ih =>
    intro h
    by_cases ha : a = x
    · simp [breakAtP, ha] at h
    · simp only [breakAtP, if_neg ha] at h
      cases hb : breakAtP x as with
      | none =>
        simp only [List.mem_cons]
        rintro (hx | hx)
        · exact ha hx.symm
        · exact ih hb hx
      | some pq => rw [hb] at h; simp at h

theorem breakAtP_append {α : Type} [DecidableEq α] {x : α} :
    ∀ {pre : List α}, x ∉ pre → ∀ post, breakAtP x (pre ++ x :: post) = some (pre, post) := by
  intro pre
  induction pre with
  | nil => intro _ post; simp [breakAtP]
  | cons a as ih =>
    intro h post
    have ha : a ≠ x := fun hx => h (by simp [hx])
    have has : x ∉ as := fun hx => h (by simp [hx])
    simp only [List.cons_append, breakAtP, if_neg ha, List.append_eq]
    rw [ih has post]

/-- `breakAtP` only looks at the image of each element under a map that
reflects the scanned character. -/
theorem breakAtP_map {α β : Type} [DecidableEq α] [DecidableEq β]
    {x : α} {y : β} {f : α → β} (hf : ∀ c, f c = y ↔ c = x) :
    ∀ l : List α, breakAtP y (l.map f) =
      (breakAtP x l).map (fun pq => (pq.1.map f, pq.2.map f)) := by
  intro l
  induction l with
  | nil => simp [breakAtP]
  | cons a as ih =>
    by_cases ha : a = x
    · subst ha
      have hfa : f a = y := (hf a).mpr rfl
      simp [breakAtP, hfa]
    · have hfa : f a ≠ y := fun hy => ha ((hf a).mp hy)
      simp only [List.map_cons, breakAtP, if_neg hfa, if_neg ha, ih]
      cases breakAtP x as with
      | none => simp
      | some pq => simp

/-! ## The Brace Splitter: `split_braces` (main.py line 33–34)

`re.split(r"(\{.*?\})", text, flags=re.DOTALL)` with a capturing group returns
the text before the first match, the match, and so on, ending with the text
after the last match.  The leftmost match of `\{.*?\}` starts at the first
`'{'` of the text and ends at the first `'}'` after it (non-greedy `.*?`,
DOTALL so `.` matches every character); if there is no such pair the whole
text is returned as a single piece. -/

def splitBF : Nat → List Char → List (List Char)
  | 0, cs => [cs]
  | fuel + 1, cs =>
    match breakAtP '{' cs with
    | none => [cs]
    | some (pre, rest) =>
      match breakAtP '}' rest with
      | none => [cs]
      | some (mid, post) => pre :: ('{' :: (mid ++ ['}'])) :: splitBF fuel post

/-- `split_braces(text)` from main.py: each match consumes at least two
characters, so `text.length` bounds the number of matches. -/
def split_braces (cs : List Char) : List (List Char) := splitBF cs.length cs

theorem splitBF_nil : ∀ f, splitBF f [] = [[]] := by
  intro f
  cases f <;> simp [splitBF, breakAtP]

theorem splitBF_congr :
    ∀ f g cs, cs.length ≤ f → cs.length ≤ g → splitBF f cs = splitBF g cs := by
  intro f
  induction f with
  | zero =>
    intro g cs hf _
    have : cs = [] := List.length_eq_zero.mp (Nat.le_zero.mp hf)
    rw [this, splitBF_nil, splitBF_nil]
  | succ f ih =>
    intro g cs hf hg
    cases g with
    | zero =>
      have : cs = [] := List.length_eq_zero.mp (Nat.le_zero.mp hg)
      rw [this, splitBF_nil, splitBF_nil]
    | succ g =>
      show splitBF (f + 1) cs = splitBF (g + 1) cs
      cases h1 : breakAtP '{' cs with
      | none => simp [splitBF, h1]
      | some pr =>
        obtain ⟨pre, rest⟩ := pr
        cases h2 : breakAtP '}' rest with
        | none => simp [splitBF, h1, h2]
        | some mp =>
          obtain ⟨mid, post⟩ := mp
          have e1 := (breakAtP_eq_some h1).1
          have e2 := (breakAtP_eq_some h2).1
          have hlen : post.length + 2 ≤ cs.length := by
            rw [e1, e2]; simp; omega
          simp only [splitBF, h1, h2]
          rw [ih g post (by omega) (by omega)]

theorem split_braces_of_none {cs : List Char} (h : breakAtP '{' cs = none) :
    split_braces cs = [cs] := by
  unfold split_braces
  cases hl : cs.length with
  | zero => simp [splitBF]
  | succ n => simp [splitBF, h]

theorem split_braces_of_none2 {cs pre rest : List Char}
    (h1 : breakAtP '{' cs = some (pre, rest)) (h2 : breakAtP '}' rest = none) :
    split_braces cs = [cs] := by
  unfold split_braces
  cases hl : cs.length with
  | zero =>
    exfalso
    have := (breakAtP_eq_some h1).1
    rw [this] at hl
    simp at hl
  | succ n => simp [splitBF, h1, h2]

theorem split_braces_cons {cs pre rest mid post : List Char}
    (h1 : breakAtP '{' cs = some (pre, rest)) (h2 : breakAtP '}' rest = some (mid, post)) :
    split_braces cs = pre :: ('{' :: (mid ++ ['}'])) :: split_braces post := by
  have e1 := (breakAtP_eq_some h1).1
  have e2 := (breakAtP_eq_some h2).1
  have hlen : post.length + 2 ≤ cs.length := by
    rw [e1, e2]; simp; omega
  unfold split_braces
  cases hl : cs.length with
  | zero => omega
  | succ n =>
    simp only [splitBF, h1, h2]
    rw [splitBF_congr n post.length post (by omega) (by omega)]

theorem split_braces_flatten_aux :
    ∀ (n : Nat) (cs : List Char), cs.length ≤ n → (split_braces cs).flatten = cs := by
  intro n
  induction n with
  | zero =>
    intro cs h
    have : cs = [] := List.length_eq_zero.mp (Nat.le_zero.mp h)
    subst this
    rw [split_braces_of_none (by simp [breakAtP])]
    simp
  | succ n ih =>
    intro cs h
    cases h1 : breakAtP '{' cs with
    | none => rw [split_braces_of_none h1]; simp
    | some pr =>
      obtain ⟨pre, rest⟩ := pr
      cases h2 : breakAtP '}' rest with
      | none => rw [split_braces_of_none2 h1 h2]; simp
      | some mp =>
        obtain ⟨mid, post⟩ := mp
        have e1 := (breakAtP_eq_some h1).1
        have e2 := (breakAtP_eq_some h2).1
        have hlen : post.length + 2 ≤ cs.length := by
          rw [e1, e2]; simp; omega
        rw [split_braces_cons h1 h2]
        simp only [List.flatten_cons]
        rw [ih post (by omega)]
        rw [e1, e2]
        simp

/-- Concatenation invariant of the Brace Splitter (spec §4.1 (a), §8). -/
theorem split_braces_flatten (cs : List Char) : (split_braces cs).flatten = cs :=
  split_braces_flatten_aux cs.length cs (Nat.le_refl _)

theorem braceClass_zero_iff (c : Char) : braceClass c = 0 ↔ c = '{' :=
  ⟨braceClass_eq_zero, fun h => by rw [h]; rfl⟩

theorem braceClass_one_iff (c : Char) : braceClass c = 1 ↔ c = '}' := by
  refine ⟨braceClass_eq_one, fun h => ?_⟩
  rw [h]
  decide

/-- The lengths of all segments produced by `split_braces` depend only on the
positions of `'{'` and `'}'` in the input. -/
theorem split_braces_shape_aux :
    ∀ (n : Nat) (cs ds : List Char), cs.length ≤ n →
      cs.map braceClass = ds.map braceClass →
      (split_braces cs).map List.length = (split_braces ds).map List.length := by
  intro n
  induction n with
  | zero =>
    intro cs ds h hm
    have hcs : cs = [] := List.length_eq_zero.mp (Nat.le_zero.mp h)
    subst hcs
    have hds : ds = [] := by
      cases ds with
      | nil => rfl
      | cons d ds' => simp at hm
    subst hds
    rfl
  | succ n ih =>
    intro cs ds h hm
    have hlen_eq : cs.length = ds.length := by
      have := congrArg List.length hm
      simpa using this
    have ebrk : (breakAtP '{' cs).map (fun pq => (pq.1.map braceClass, pq.2.map braceClass))
        = (breakAtP '{' ds).map (fun pq => (pq.1.map braceClass, pq.2.map braceClass)) := by
      rw [← breakAtP_map braceClass_zero_iff cs, ← breakAtP_map braceClass_zero_iff ds, hm]
    cases h1 : breakAtP '{' cs with
    | none =>
      rw [h1] at ebrk
      cases h1' : breakAtP '{' ds with
      | none =>
        rw [split_braces_of_none h1, split_braces_of_none h1']
        simp [hlen_eq]
      | some pr' => rw [h1'] at ebrk; simp at ebrk
    | some pr =>
      obtain ⟨pre, rest⟩ := pr
      rw [h1] at ebrk
      cases h1' : breakAtP '{' ds with
      | none => rw [h1'] at ebrk; simp at ebrk
      | some pr' =>
        obtain ⟨pre', rest'⟩ := pr'
        rw [h1'] at ebrk
        simp only [Option.map_some'] at ebrk
        have hpre : pre.map braceClass = pre'.map braceClass := by
          have := congrArg Prod.fst (Option.some.inj ebrk)
          simpa using this
        have hrest : rest.map braceClass = rest'.map braceClass := by
          have := congrArg Prod.snd (Option.some.inj ebrk)
          simpa using this
        have ebrk2 : (breakAtP '}' rest).map (fun pq => (pq.1.map braceClass, pq.2.map braceClass))
            = (breakAtP '}' rest').map (fun pq => (pq.1.map braceClass, pq.2.map braceClass)) := by
          rw [← breakAtP_map braceClass_one_iff rest, ← breakAtP_map braceClass_one_iff rest', hrest]
        cases h2 : breakAtP '}' rest with
        | none =>
          rw [h2] at ebrk2
          cases h2' : breakAtP '}' rest' with
          | none =>
            rw [split_braces_of_none2 h1 h2, split_braces_of_none2 h1' h2']
            simp [hlen_eq]
          | some mp' => rw [h2'] at ebrk2; simp at ebrk2
        | some mp =>
          obtain ⟨mid, post⟩ := mp
          rw [h2] at ebrk2
          cases h2' : breakAtP '}' rest' with
          | none => rw [h2'] at ebrk2; simp at ebrk2
          | some mp' =>
            obtain ⟨mid', post'⟩ := mp'
            rw [h2'] at ebrk2
            simp only [Option.map_some'] at ebrk2
            have hmid : mid.map braceClass = mid'.map braceClass := by
              have := congrArg Prod.fst (Option.some.inj ebrk2)
              simpa using this
            have hpost : post.map braceClass = post'.map braceClass := by
              have := congrArg Prod.snd (Option.some.inj ebrk2)
              simpa using this
            have e1 := (breakAtP_eq_some h1).1
            have e2 := (breakAtP_eq_some h2).1
            have hlen : post.length + 2 ≤ cs.length := by
              rw [e1, e2]; simp; omega
            rw [split_braces_cons h1 h2, split_braces_cons h1' h2']
            simp only [List.map_cons]
            have lpre : pre.length = pre'.length := by
              have := congrArg List.length hpre; simpa using this
            have lmid : mid.length = mid'.length := by
              have := congrArg List.length hmid; simpa using this
            have lseg : ('{' :: (mid ++ ['}'])).length = ('{' :: (mid' ++ ['}'])).length := by
              simp [lmid]
            rw [lpre, lseg, ih post post' (by omega) hpost]

theorem split_braces_shape {cs ds : List Char}
    (hm : cs.map braceClass = ds.map braceClass) :
    (split_braces cs).map List.length = (split_braces ds).map List.length :=
  split_braces_shape_aux cs.length cs ds (Nat.le_refl _) hm

/-- A concatenation determines its parts once the part lengths are fixed. -/
theorem flatten_eq_of_lengths :
    ∀ (A B : List (List Char)), A.map List.length = B.map List.length →
      A.flatten = B.flatten → A = B := by
  intro A
  induction A with
  | nil =>
    intro B h _
    cases B with
    | nil => rfl
    | cons b bs => simp at h
  | cons a as ih =>
    intro B h hf
    cases B with
    | nil => simp at h
    | cons b bs =>
      simp only [List.map_cons, List.cons.injEq] at h
      simp only [List.flatten_cons] at hf
      obtain ⟨hab, hrest⟩ := List.append_inj hf h.1
      rw [hab, ih bs h.2 hrest]

/-! ## Data model: entity spans (the external Entity Span Provider) -/

/-- One named-entity span as the code reads it off `doc.ents`:
`(ent.start_char, ent.end_char, ent.label_)` — character offsets, half-open. -/
structure Ent where
  start_char : Nat
  end_char : Nat
  label : String

/-- `ENTITY_LABELS` (main.py lines 10–19). -/
def ENTITY_LABELS : List String :=
  ["PERSON", "GPE", "LOC", "ORG", "NORP", "WORK_OF_ART", "EVENT", "PRODUCT"]

/-- Python slice `s[i:j]` for non-negative bounds (clamps at the ends,
empty when `j ≤ i`). -/
def pySlice (s : List Char) (i j : Nat) : List Char := (s.take j).drop i

/-- Lexicographic comparison on `(start, end)` pairs: the order used by
Python's `spans.sort()` on 2-tuples. -/
def spanLe (x y : Nat × Nat) : Bool :=
  decide (x.1 < y.1 ∨ (x.1 = y.1 ∧ x.2 ≤ y.2))

def insertSpan (x : Nat × Nat) : List (Nat × Nat) → List (Nat × Nat)
  | [] => [x]
  | y :: ys => if spanLe x y then x :: y :: ys else y :: insertSpan x ys

/-- `spans.sort()` (main.py line 46), as an insertion sort. -/
def sortSpans (l : List (Nat × Nat)) : List (Nat × Nat) := l.foldr insertSpan []

/-- The merge loop of `brace_entities` (main.py lines 47–52): starting from
the current span, append the next span as a new merged span when its start
is strictly beyond the current end, otherwise extend the current end. -/
def mergeLoop (cur : Nat × Nat) : List (Nat × Nat) → List (Nat × Nat)
  | [] => [cur]
  | (a, b) :: rest =>
    if cur.2 < a then cur :: mergeLoop (a, b) rest
    else mergeLoop (cur.1, max cur.2 b) rest

def mergeSpans : List (Nat × Nat) → List (Nat × Nat)
  | [] => []
  | s :: rest => mergeLoop s rest

/-- The output assembly of `brace_entities` (main.py lines 53–60). -/
def renderSpans (text : List Char) : Nat → List (Nat × Nat) → List Char
  | last, [] => text.drop last
  | last, (a, b) :: rest =>
    pySlice text last a ++ ('{' :: (pySlice text a b ++ ['}'])) ++ renderSpans text b rest

/-- `brace_entities` (main.py lines 37–60).  `nlp` is the Entity Span
Provider; the label filter is the list comprehension on lines 39–43. -/
def brace_entities (nlp : List Char → List Ent) (text : List Char) : List Char :=
  let spans := ((nlp text).filter (fun e => ENTITY_LABELS.contains e.label)).map
    (fun e => (e.start_char, e.end_char))
  if spans.isEmpty then text
  else renderSpans text 0 (mergeSpans (sortSpans spans))

/-- `p.startswith("{") and p.endswith("}")` — the protected-segment test
used by all three passes. -/
def isProt (p : List Char) : Bool := p.head? == some '{' && p.getLast? == some '}'

/-- `brace_entities_preserve_existing` (main.py lines 63–71). -/
def brace_entities_preserve_existing (nlp : List Char → List Ent) (title : List Char) :
    List Char :=
  ((split_braces title).map (fun p => if isProt p then p else brace_entities nlp p)).flatten

/-! ## The Acronym Protector -/

/-- For a maximal `\w`-run, matching `_ACRONYM_TOKEN_RE` and passing the
`repl` test (main.py lines 82–86) are the same condition: the branch
`[A-Z0-9]{2,}` succeeds only on an all-upper/digit run of length ≥ 2 (on any
proper prefix of the run the trailing `\b` fails, because the next character
is still a word character), and then `re.fullmatch(r"[A-Z0-9]{2,}", tok)`
holds; the branch `(?=\w*\d)\w+` succeeds exactly on a run containing a
digit, and then `re.search(r"\d", tok)` holds. -/
def acronymQualifies (run : List Char) : Bool :=
  (run.all isUpperDigit && decide (2 ≤ run.length)) || run.any Char.isDigit

def wrapToken (run : List Char) : List Char :=
  if acronymQualifies run then '{' :: (run ++ ['}']) else run

/-- `_ACRONYM_TOKEN_RE.sub(repl, p)` (main.py line 88): scan the text by
maximal word runs; wrap each qualifying run. -/
def acroSubF : Nat → List Char → List Char
  | 0, cs => cs
  | _ + 1, [] => []
  | fuel + 1, c :: cs =>
    if isWordChar c then
      wrapToken (c :: cs.takeWhile isWordChar) ++ acroSubF fuel (cs.dropWhile isWordChar)
    else c :: acroSubF fuel cs

def acroSub (cs : List Char) : List Char := acroSubF cs.length cs

/-- `protect_acronyms_preserve_braces` (main.py lines 74–89). -/
def protect_acronyms_preserve_braces (chunk : List Char) : List Char :=
  ((split_braces chunk).map (fun p => if isProt p then p else acroSub p)).flatten

/-! ## The Sentence Caser -/

/-- `re.sub(r"^([^A-Za-z0-9]*)([A-Za-z])", …, count=1)` (main.py lines
102–107): anchored at the start; skips the maximal run of non-alphanumeric
characters; if the next character is a letter, upper-case it, otherwise no
match (a leading digit blocks the rule). -/
def firstCapSub (s : List Char) : List Char :=
  match s.dropWhile (fun c => !c.isAlphanum) with
  | c :: cs =>
    if c.isAlpha then s.takeWhile (fun c => !c.isAlphanum) ++ (Char.toUpper c :: cs) else s
  | [] => s

/-- `re.sub(r"(:\s*)([A-Za-z])", …)` (main.py lines 110–112): at each `':'`,
if the character after its maximal whitespace run is a letter, upper-case
that letter and resume after it; otherwise resume right after the `':'`. -/
def colonSubF : Nat → List Char → List Char
  | 0, cs => cs
  | _ + 1, [] => []
  | fuel + 1, c :: cs =>
    if c = ':' then
      match cs.dropWhile isSpaceChar with
      | d :: ds =>
        if d.isAlpha then
          ':' :: (cs.takeWhile isSpaceChar ++ (Char.toUpper d :: colonSubF fuel ds))
        else ':' :: colonSubF fuel cs
      | [] => ':' :: colonSubF fuel cs
    else c :: colonSubF fuel cs

def colonSub (cs : List Char) : List Char := colonSubF cs.length cs

/-- The loop body of `sentence_case_preserve_braces` (main.py lines 95–113),
threading the `is_first_part` flag through the segment list. -/
def scParts : List (List Char) → Bool → List (List Char)
  | [], _ => []
  | p :: ps, first =>
    if isProt p then p :: scParts ps first
    else
      if first && (p.map Char.toLower).any Char.isAlpha then
        colonSub (firstCapSub (p.map Char.toLower)) :: scParts ps false
      else
        colonSub (p.map Char.toLower) :: scParts ps first

/-- `sentence_case_preserve_braces` (main.py lines 92–114). -/
def sentence_case_preserve_braces (text : List Char) : List Char :=
  (scParts (split_braces text) true).flatten

/-! ## The Title Pipeline -/

/-- `process_title` (main.py lines 117–121). -/
def process_title (nlp : List Char → List Ent) (raw : List Char) : List Char × Bool :=
  let step1 := brace_entities_preserve_existing nlp raw
  let step2 := protect_acronyms_preserve_braces step1
  let step3 := sentence_case_preserve_braces step2
  (step3, decide (step3 ≠ raw))

/-- Delete every marker character (for the insertion-only invariant). -/
def delBraces (cs : List Char) : List Char :=
  cs.filter (fun c => !(c == '{' || c == '}'))

/-! ## Equation lemmas for the fuelled scanners -/

theorem length_dropWhile_le (p : Char → Bool) (l : List Char) :
    (l.dropWhile p).length ≤ l.length := by
  have h := congrArg List.length (List.takeWhile_append_dropWhile p l)
  simp only [List.length_append] at h
  omega

theorem acroSubF_congr :
    ∀ f g cs, cs.length ≤ f → cs.length ≤ g → acroSubF f cs = acroSubF g cs := by
  intro f
  induction f with
  | zero =>
    intro g cs hf _
    have : cs = [] := List.length_eq_zero.mp (Nat.le_zero.mp hf)
    subst this
    cases g <;> rfl
  | succ f ih =>
    intro g cs hf hg
    cases cs with
    | nil => cases g <;> rfl
    | cons c cs =>
      cases g with
      | zero => simp at hg
      | succ g =>
        show acroSubF (f + 1) (c :: cs) = acroSubF (g + 1) (c :: cs)
        simp only [acroSubF]
        by_cases hc : isWordChar c = true
        · simp only [hc, if_true]
          have hd := length_dropWhile_le isWordChar cs
          rw [ih g (cs.dropWhile isWordChar) (by simp at hf; omega) (by simp at hg; omega)]
        · have hc2 : isWordChar c = false := by simpa using hc
          simp only [hc2, Bool.false_eq_true, if_false]
          rw [ih g cs (by simp at hf; omega) (by simp at hg; omega)]

theorem acroSub_nil : acroSub [] = [] := rfl

theorem acroSub_word {c : Char} {cs : List Char} (h : isWordChar c = true) :
    acroSub (c :: cs) =
      wrapToken (c :: cs.takeWhile isWordChar) ++ acroSub (cs.dropWhile isWordChar) := by
  unfold acroSub
  show acroSubF (cs.length + 1) (c :: cs) = _
  simp only [acroSubF, h, if_true]
  rw [acroSubF_congr cs.length (cs.dropWhile isWordChar).length (cs.dropWhile isWordChar)
    (length_dropWhile_le _ _) (Nat.le_refl _)]

theorem acroSub_nonword {c : Char} {cs : List Char} (h : isWordChar c = false) :
    acroSub (c :: cs) = c :: acroSub cs := by
  unfold acroSub
  show acroSubF (cs.length + 1) (c :: cs) = _
  simp only [acroSubF, h, Bool.false_eq_true, if_false]

theorem colonSubF_congr :
    ∀ f g cs, cs.length ≤ f → cs.length ≤ g → colonSubF f cs = colonSubF g cs := by
  intro f
  induction f with
  | zero =>
    intro g cs hf _
    have : cs = [] := List.length_eq_zero.mp (Nat.le_zero.mp hf)
    subst this
    cases g <;> rfl
  | succ f ih =>
    intro g cs hf hg
    cases cs with
    | nil => cases g <;> rfl
    | cons c cs =>
      cases g with
      | zero => simp at hg
      | succ g =>
        show colonSubF (f + 1) (c :: cs) = colonSubF (g + 1) (c :: cs)
        simp only [colonSubF]
        by_cases hc : c = ':'
        · simp only [hc, if_true]
          cases hd : cs.dropWhile isSpaceChar with
          | nil => rw [ih g cs (by simp at hf; omega) (by simp at hg; omega)]
          | cons d ds =>
            by_cases hda : d.isAlpha = true
            · simp only [hda, if_true]
              have hlen : ds.length < cs.length := by
                have h1 := length_dropWhile_le isSpaceChar cs
                rw [hd] at h1
                simp at h1
                omega
              rw [ih g ds (by simp at hf; omega) (by simp at hg; omega)]
            · have hda2 : d.isAlpha = false := by simpa using hda
              simp only [hda2, Bool.false_eq_true, if_false]
              rw [ih g cs (by simp at hf; omega) (by simp at hg; omega)]
        · simp only [hc, if_false]
          rw [ih g cs (by simp at hf; omega) (by simp at hg; omega)]

theorem colonSub_nil : colonSub [] = [] := rfl

theorem colonSub_ne {c : Char} {cs : List Char} (h : ¬(c = ':')) :
    colonSub (c :: cs) = c :: colonSub cs := by
  unfold colonSub
  show colonSubF (cs.length + 1) (c :: cs) = _
  simp only [colonSubF, h, if_false]

theorem colonSub_colon_alpha {cs ds : List Char} {d : Char}
    (hd : cs.dropWhile isSpaceChar = d :: ds) (hda : d.isAlpha = true) :
    colonSub (':' :: cs) =
      ':' :: (cs.takeWhile isSpaceChar ++ (Char.toUpper d :: colonSub ds)) := by
  unfold colonSub
  show colonSubF (cs.length + 1) (':' :: cs) = _
  simp only [colonSubF, if_pos rfl, hd, hda, if_true]
  have hlen : ds.length < cs.length := by
    have h1 := length_dropWhile_le isSpaceChar cs
    rw [hd] at h1
    simp at h1
    omega
  rw [colonSubF_congr cs.length ds.length ds (by omega) (Nat.le_refl _)]

theorem colonSub_colon_nil {cs : List Char} (hd : cs.dropWhile isSpaceChar = []) :
    colonSub (':' :: cs) = ':' :: colonSub cs := by
  unfold colonSub
  show colonSubF (cs.length + 1) (':' :: cs) = _
  simp only [colonSubF, if_pos rfl, hd, if_true]

theorem colonSub_colon_nonalpha {cs ds : List Char} {d : Char}
    (hd : cs.dropWhile isSpaceChar = d :: ds) (hda : d.isAlpha = false) :
    colonSub (':' :: cs) = ':' :: colonSub cs := by
  unfold colonSub
  show colonSubF (cs.length + 1) (':' :: cs) = _
  simp only [colonSubF, if_pos rfl, hd, hda, Bool.false_eq_true, if_false, if_true]

/-! ## Claims C2, C5, C9 -/

/-- Claim C2: for every input string, concatenating in order all elements of
the sequence returned by `split_braces` yields exactly the input. -/
theorem claim_C2_split_braces_concat (s : List Char) : (split_braces s).flatten = s :=
  split_braces_flatten s

/-- Stub Entity Span Provider returning two adjacent spans `[0,3)`, `[3,5)`. -/
def provAdjacent : List Char → List Ent := fun _ => [⟨0, 3, "ORG"⟩, ⟨3, 5, "GPE"⟩]

/-- Stub Entity Span Provider returning two gapped spans `[0,3)`, `[5,8)`. -/
def provGap : List Char → List Ent := fun _ => [⟨0, 3, "ORG"⟩, ⟨5, 8, "GPE"⟩]

/-- Claim C5: for spans sorted by start offset, two spans are coalesced by
the merge loop exactly when the next span's start is ≤ the current merged
span's end; adjacent spans `[0,3)`, `[3,5)` yield one protected span, gapped
spans `[0,3)`, `[5,8)` yield two, with the inter-span text untouched. -/
theorem claim_C5_entity_span_merge :
    (∀ a b c d : Nat, a ≤ c →
        (c ≤ b → mergeSpans [(a, b), (c, d)] = [(a, max b d)]) ∧
        (b < c → mergeSpans [(a, b), (c, d)] = [(a, b), (c, d)])) ∧
    brace_entities provAdjacent ("abcde".toList) = "{abcde}".toList ∧
    brace_entities provGap ("abcdefgh".toList) = "{abc}de{fgh}".toList := by
  refine ⟨?_, by decide, by decide⟩
  intro a b c d _
  constructor
  · intro h
    simp [mergeSpans, mergeLoop, Nat.not_lt.mpr h]
  · intro h
    simp [mergeSpans, mergeLoop, h]

/-- Witness for Claim C5 at the concrete spans from the spec. -/
theorem claim_C5_witness :
    mergeSpans [(0, 3), (3, 5)] = [(0, 5)] ∧ mergeSpans [(0, 3), (5, 8)] = [(0, 3), (5, 8)] := by
  constructor
  · have h := (claim_C5_entity_span_merge.1 0 3 3 5 (by decide)).1 (by decide)
    simpa using h
  · exact (claim_C5_entity_span_merge.1 0 3 5 8 (by decide)).2 (by decide)

/-- Claim C9 counterexample: on the input `"}"` the single returned segment
contains a marker character yet is not wrapped in a marker pair, so the
universally quantified claim is false as stated. -/
theorem claim_C9_counterexample :
    ['}'] ∈ split_braces ['}'] ∧
    ¬((['}'] : List Char).head? = some '{' ∧ (['}'] : List Char).getLast? = some '}') ∧
    ¬(∀ c ∈ (['}'] : List Char), c ≠ '{' ∧ c ≠ '}') := by
  refine ⟨by decide, by decide, ?_⟩
  intro h
  exact (h '}' (by decide)).2 rfl

theorem breakAtP_none_of_not_mem {α : Type} [DecidableEq α] {x : α} {l : List α}
    (h : x ∉ l) : breakAtP x l = none := by
  cases hb : breakAtP x l with
  | none => rfl
  | some pq =>
    obtain ⟨pre, post⟩ := pq
    exact absurd (by rw [(breakAtP_eq_some hb).1]; simp) h

/-- Well-formed protection structure: a concatenation of non-marker
characters and single-level `{…}` groups with marker-free interiors (the
shape the spec assumes for intentional pre-existing protection, §6). -/
inductive WellBraced : List Char → Prop
  | nil : WellBraced []
  | chr {c : Char} {rest : List Char} :
      c ≠ '{' → c ≠ '}' → WellBraced rest → WellBraced (c :: rest)
  | prot {mid rest : List Char} :
      (∀ c ∈ mid, c ≠ '{' ∧ c ≠ '}') → WellBraced rest →
      WellBraced ('{' :: (mid ++ '}' :: rest))

theorem wellBraced_decomp {s : List Char} (h : WellBraced s) :
    (∀ c ∈ s, c ≠ '{' ∧ c ≠ '}') ∨
    ∃ pre mid rest, s = pre ++ '{' :: (mid ++ '}' :: rest) ∧
      (∀ c ∈ pre, c ≠ '{' ∧ c ≠ '}') ∧ (∀ c ∈ mid, c ≠ '{' ∧ c ≠ '}') ∧
      WellBraced rest := by
  induction h with
  | nil => left; simp
  | @chr c rest hc1 hc2 _ ih =>
    rcases ih with hnb | ⟨pre, mid, rest', hs, hpre, hmid, hwb⟩
    · left
      intro d hd
      rcases List.mem_cons.mp hd with hd | hd
      · exact hd ▸ ⟨hc1, hc2⟩
      · exact hnb d hd
    · right
      exact ⟨c :: pre, mid, rest', by rw [hs]; rfl, by
        intro d hd
        rcases List.mem_cons.mp hd with hd | hd
        · exact hd ▸ ⟨hc1, hc2⟩
        · exact hpre d hd, hmid, hwb⟩
  | @prot mid rest hmid hwb _ =>
    right
    exact ⟨[], mid, rest, rfl, by simp, hmid, hwb⟩

theorem wellBraced_segments_aux :
    ∀ (n : Nat) (s : List Char), s.length ≤ n → WellBraced s →
      ∀ seg ∈ split_braces s,
        (seg.head? = some '{' ∧ seg.getLast? = some '}' ∧
          ∀ c ∈ (seg.drop 1).dropLast, c ≠ '{' ∧ c ≠ '}') ∨
        (∀ c ∈ seg, c ≠ '{' ∧ c ≠ '}') := by
  intro n
  induction n with
  | zero =>
    intro s hl _ seg hseg
    have : s = [] := List.length_eq_zero.mp (Nat.le_zero.mp hl)
    subst this
    rw [split_braces_of_none (by simp [breakAtP])] at hseg
    simp at hseg
    subst hseg
    right
    simp
  | succ n ih =>
    intro s hl hwb seg hseg
    rcases wellBraced_decomp hwb with hnb | ⟨pre, mid, rest, hs, hpre, hmid, hwbr⟩
    · have hnone : breakAtP '{' s = none :=
        breakAtP_none_of_not_mem (fun hx => (hnb '{' hx).1 rfl)
      rw [split_braces_of_none hnone] at hseg
      simp at hseg
      subst hseg
      right
      exact hnb
    · subst hs
      have h1 : breakAtP '{' (pre ++ '{' :: (mid ++ '}' :: rest)) = some (pre, mid ++ '}' :: rest) :=
        breakAtP_append (fun hx => (hpre '{' hx).1 rfl) _
      have h2 : breakAtP '}' (mid ++ '}' :: rest) = some (mid, rest) :=
        breakAtP_append (fun hx => (hmid '}' hx).2 rfl) _
      rw [split_braces_cons h1 h2] at hseg
      rcases List.mem_cons.mp hseg with hseg | hseg
      · subst hseg
        right
        exact hpre
      rcases List.mem_cons.mp hseg with hseg | hseg
      · subst hseg
        left
        refine ⟨rfl, ?_, ?_⟩
        · show (('{' :: mid) ++ ['}']).getLast? = some '}'
          rw [List.getLast?_concat]
        · intro c hc
          simp only [List.drop_succ_cons, List.drop_zero, List.dropLast_concat] at hc
          exact hmid c hc
      · have hrl : rest.length ≤ n := by
          have := hl
          simp at this
          omega
        exact ih rest hrl hwbr seg hseg

/-- Claim C9 (amended): for every input whose markers are well-formed
(single-level `{…}` groups with marker-free interiors, stray markers
excluded), every segment returned by `split_braces` either is wrapped in one
top-level marker pair with a marker-free interior, or contains no marker
characters; and matching is non-greedy, so `"{A}{B}"` is returned as two
separate protected segments. -/
theorem claim_C9_amended (s : List Char) (h : WellBraced s) :
    (∀ seg ∈ split_braces s,
        (seg.head? = some '{' ∧ seg.getLast? = some '}' ∧
          ∀ c ∈ (seg.drop 1).dropLast, c ≠ '{' ∧ c ≠ '}') ∨
        (∀ c ∈ seg, c ≠ '{' ∧ c ≠ '}')) ∧
    split_braces ("{A}{B}".toList) = [[], "{A}".toList, [], "{B}".toList, []] := by
  refine ⟨wellBraced_segments_aux s.length s (Nat.le_refl _) h, by decide⟩

/-- Witness for the amended Claim C9 on `"a{b}c"`. -/
theorem claim_C9_amended_witness :
    (∀ seg ∈ split_braces ("a{b}c".toList),
        (seg.head? = some '{' ∧ seg.getLast? = some '}' ∧
          ∀ c ∈ (seg.drop 1).dropLast, c ≠ '{' ∧ c ≠ '}') ∨
        (∀ c ∈ seg, c ≠ '{' ∧ c ≠ '}')) ∧
    split_braces ("{A}{B}".toList) = [[], "{A}".toList, [], "{B}".toList, []] :=
  claim_C9_amended ("a{b}c".toList)
    (WellBraced.chr (by decide) (by decide)
      (@WellBraced.prot ['b'] ['c'] (by decide)
        (WellBraced.chr (by decide) (by decide) WellBraced.nil)))

/-! ## Claim C6: acronym qualification -/

theorem dropWhile_ne_nil_of_getLast {p : Char → Bool} :
    ∀ {l : List Char} {c : Char}, l.getLast? = some c → p c = false → l.dropWhile p ≠ [] := by
  intro l
  induction l with
  | nil => intro c h _; simp at h
  | cons a l' ih =>
    intro c h hc
    cases hpa : p a with
    | false => simp [List.dropWhile_cons, hpa]
    | true =>
      cases l' with
      | nil =>
        simp at h
        subst h
        rw [hpa] at hc
        cases hc
      | cons b t =>
        rw [List.getLast?_cons_cons] at h
        have hne := ih h hc
        simpa [List.dropWhile_cons, hpa] using hne

theorem dropWhile_append_of_ne_nil {p : Char → Bool} :
    ∀ {l : List Char}, l.dropWhile p ≠ [] → ∀ b : List Char,
      (l ++ b).takeWhile p = l.takeWhile p ∧ (l ++ b).dropWhile p = l.dropWhile p ++ b := by
  intro l
  induction l with
  | nil => intro h; exact absurd rfl h
  | cons a l' ih =>
    intro h b
    cases hpa : p a with
    | false =>
      simp only [List.cons_append, List.takeWhile_cons, List.dropWhile_cons, hpa]
      simp
    | true =>
      rw [List.dropWhile_cons, hpa] at h
      simp only [if_true] at h
      obtain ⟨h1, h2⟩ := ih h b
      simp only [List.cons_append, List.takeWhile_cons, List.dropWhile_cons, hpa, if_true]
      exact ⟨by rw [h1], by rw [h2]⟩

theorem takeWhile_append_of_all {p : Char → Bool} :
    ∀ {l : List Char}, (∀ c ∈ l, p c = true) → ∀ b : List Char,
      (l ++ b).takeWhile p = l ++ b.takeWhile p ∧ (l ++ b).dropWhile p = b.dropWhile p := by
  intro l
  induction l with
  | nil => intro _ b; simp
  | cons a l' ih =>
    intro h b
    have hpa : p a = true := h a (by simp)
    obtain ⟨h1, h2⟩ := ih (fun c hc => h c (by simp [hc])) b
    simp only [List.cons_append, List.takeWhile_cons, List.dropWhile_cons, hpa, if_true]
    exact ⟨by rw [h1], by rw [h2]⟩

theorem getLast?_dropWhile {p : Char → Bool} {l : List Char}
    (h : l.dropWhile p ≠ []) : (l.dropWhile p).getLast? = l.getLast? := by
  conv_rhs => rw [← List.takeWhile_append_dropWhile p l]
  rw [List.getLast?_append_of_ne_nil _ h]

theorem acroSub_append_aux :
    ∀ (n : Nat) (a : List Char), a.length ≤ n →
      (∀ c, a.getLast? = some c → isWordChar c = false) →
      ∀ b : List Char, acroSub (a ++ b) = acroSub a ++ acroSub b := by
  intro n
  induction n with
  | zero =>
    intro a hl _ b
    have : a = [] := List.length_eq_zero.mp (Nat.le_zero.mp hl)
    subst this
    simp [acroSub_nil]
  | succ n ih =>
    intro a hl ha b
    cases a with
    | nil => simp [acroSub_nil]
    | cons c a' =>
      cases hc : isWordChar c with
      | false =>
        rw [List.cons_append, acroSub_nonword hc, acroSub_nonword hc]
        cases a' with
        | nil => simp [acroSub_nil]
        | cons e t =>
          have hlast : ∀ d, (e :: t).getLast? = some d → isWordChar d = false := by
            intro d hd
            exact ha d (by rw [List.getLast?_cons_cons]; exact hd)
          rw [ih (e :: t) (by simp only [List.length_cons] at hl ⊢; omega) hlast b]
          simp
      | true =>
        cases a' with
        | nil =>
          exfalso
          have := ha c (by simp)
          rw [hc] at this
          cases this
        | cons e t =>
          obtain ⟨cw, hcw⟩ : ∃ d, (e :: t).getLast? = some d ∧ isWordChar d = false := by
            cases hg : (e :: t).getLast? with
            | none => simp at hg
            | some d =>
              refine ⟨d, rfl, ha d ?_⟩
              rw [List.getLast?_cons_cons, hg]
          obtain ⟨hg, hw⟩ := hcw
          have hdw : (e :: t).dropWhile isWordChar ≠ [] :=
            dropWhile_ne_nil_of_getLast hg hw
          obtain ⟨h1, h2⟩ := dropWhile_append_of_ne_nil hdw b
          rw [List.cons_append, acroSub_word hc, acroSub_word hc, h1, h2]
          have hlast2 : ∀ d, ((e :: t).dropWhile isWordChar).getLast? = some d →
              isWordChar d = false := by
            intro d hd
            rw [getLast?_dropWhile hdw, hg] at hd
            cases hd
            exact hw
          have hlen2 : ((e :: t).dropWhile isWordChar).length ≤ n := by
            have hd2 := length_dropWhile_le isWordChar (e :: t)
            simp only [List.length_cons] at hd2 hl ⊢
            omega
          rw [ih ((e :: t).dropWhile isWordChar) hlen2 hlast2 b]
          simp

/-- Claim C6: within an unprotected segment, a word-boundary token is wrapped
exactly when it is all upper-case/digit of length ≥ 2 or contains a digit;
tokens are wrapped individually (scanning splits at every non-word
character, so adjacent qualifying tokens are never coalesced), and the
concrete examples of the spec behave as stated. -/
theorem claim_C6_acronym_tokens :
    (∀ a b : List Char, (∀ c, a.getLast? = some c → isWordChar c = false) →
        acroSub (a ++ b) = acroSub a ++ acroSub b) ∧
    (∀ run b : List Char, run ≠ [] → (∀ c ∈ run, isWordChar c = true) →
        (∀ c, b.head? = some c → isWordChar c = false) →
        acroSub (run ++ b) =
          (if (run.all isUpperDigit && decide (2 ≤ run.length)) || run.any Char.isDigit
            then '{' :: (run ++ ['}']) else run) ++ acroSub b) ∧
    protect_acronyms_preserve_braces ("NASA and COVID19, the 2nd Of".toList)
      = "{NASA} and {COVID19}, the {2nd} Of".toList ∧
    acroSub ("AB CD".toList) = "{AB} {CD}".toList := by
  refine ⟨?_, ?_, by decide, by decide⟩
  · intro a b ha
    exact acroSub_append_aux a.length a (Nat.le_refl _) ha b
  · intro run b hne hw hb
    cases run with
    | nil => exact absurd rfl hne
    | cons c r' =>
      have hc : isWordChar c = true := hw c (by simp)
      have hall : ∀ d ∈ r', isWordChar d = true := fun d hd => hw d (by simp [hd])
      obtain ⟨h1, h2⟩ := takeWhile_append_of_all hall b
      have hbt : b.takeWhile isWordChar = [] := by
        cases b with
        | nil => rfl
        | cons x xs =>
          have := hb x rfl
          simp [List.takeWhile_cons, this]
      have hbd : b.dropWhile isWordChar = b := by
        cases b with
        | nil => rfl
        | cons x xs =>
          have := hb x rfl
          simp [List.dropWhile_cons, this]
      rw [List.cons_append, acroSub_word hc, h1, h2, hbt, hbd]
      simp only [List.append_nil]
      rfl

/-! ## Claim C7: the colon rule is segment-local -/

theorem colonSub_match {ws post : List Char} {c : Char}
    (hws : ∀ d ∈ ws, isSpaceChar d = true) (hc : c.isAlpha = true) :
    colonSub (':' :: (ws ++ c :: post)) =
      ':' :: (ws ++ (Char.toUpper c :: colonSub post)) := by
  obtain ⟨h1, h2⟩ := takeWhile_append_of_all hws (c :: post)
  have hcs : isSpaceChar c = false := isAlpha_not_space hc
  have hdw : (c :: post).dropWhile isSpaceChar = c :: post := by
    simp [List.dropWhile_cons, hcs]
  have htw : (c :: post).takeWhile isSpaceChar = [] := by
    simp [List.takeWhile_cons, hcs]
  rw [colonSub_colon_alpha (by rw [h2, hdw]) hc, h1, htw]
  simp

theorem colonSub_append_aux :
    ∀ (n : Nat) (a : List Char), a.length ≤ n → ∀ b : List Char,
      (∀ h, b.head? = some h → isSpaceChar h = false ∧ h.isAlpha = false) →
      colonSub (a ++ b) = colonSub a ++ colonSub b := by
  intro n
  induction n with
  | zero =>
    intro a hl _ _
    have : a = [] := List.length_eq_zero.mp (Nat.le_zero.mp hl)
    subst this
    simp [colonSub_nil]
  | succ n ih =>
    intro a hl b hb
    cases a with
    | nil => simp [colonSub_nil]
    | cons c a' =>
      by_cases hc : c = ':'
      · subst hc
        cases hdw : a'.dropWhile isSpaceChar with
        | cons e es =>
          have hne : a'.dropWhile isSpaceChar ≠ [] := by rw [hdw]; simp
          obtain ⟨h1, h2⟩ := dropWhile_append_of_ne_nil hne b
          rw [hdw] at h2
          cases hea : e.isAlpha with
          | true =>
            have hlen : es.length ≤ n := by
              have hd2 := length_dropWhile_le isSpaceChar a'
              rw [hdw] at hd2
              simp only [List.length_cons] at hd2 hl ⊢
              omega
            have hdw2 : (a' ++ b).dropWhile isSpaceChar = e :: (es ++ b) := by
              rw [h2]; rfl
            rw [List.cons_append, colonSub_colon_alpha hdw2 hea,
              colonSub_colon_alpha hdw hea, h1]
            rw [ih es hlen b hb]
            simp
          | false =>
            have hlen : a'.length ≤ n := by
              simp only [List.length_cons] at hl
              omega
            have hdw2 : (a' ++ b).dropWhile isSpaceChar = e :: (es ++ b) := by
              rw [h2]; rfl
            rw [List.cons_append, colonSub_colon_nonalpha hdw2 hea,
              colonSub_colon_nonalpha hdw hea, ih a' hlen b hb]
            rfl
        | nil =>
          have hall : ∀ d ∈ a', isSpaceChar d = true := by
            rw [← List.dropWhile_eq_nil_iff]
            exact hdw
          obtain ⟨h1, h2⟩ := takeWhile_append_of_all hall b
          have hlen : a'.length ≤ n := by
            simp only [List.length_cons] at hl
            omega
          cases b with
          | nil => simp [colonSub_nil]
          | cons x xs =>
            obtain ⟨hxs, hxa⟩ := hb x rfl
            have hbdw : (x :: xs).dropWhile isSpaceChar = x :: xs := by
              simp [List.dropWhile_cons, hxs]
            have hdw3 : (a' ++ x :: xs).dropWhile isSpaceChar = x :: xs := by
              rw [h2, hbdw]
            rw [List.cons_append, colonSub_colon_nonalpha hdw3 hxa,
              colonSub_colon_nil hdw, ih a' hlen (x :: xs) hb]
            rfl
      · rw [List.cons_append, colonSub_ne hc, colonSub_ne hc,
          ih a' (by simp only [List.length_cons] at hl; omega) b hb]
        rfl

/-- Claim C7: in every unprotected segment, a letter following a colon plus
optional whitespace is upper-cased by the colon rule wherever the colon
occurs in the segment; but the rule does not cross a segment boundary — with
a protected span `{X}` between `"ab:"` and `"cd"`, the `c` stays
lower-case. -/
theorem claim_C7_colon_segment_local :
    (∀ (a ws post : List Char) (c : Char), ws.all isSpaceChar = true → c.isAlpha = true →
        colonSub (a ++ ':' :: (ws ++ c :: post)) =
          colonSub a ++ ':' :: (ws ++ (Char.toUpper c :: colonSub post))) ∧
    sentence_case_preserve_braces ("ab: cd".toList) = "Ab: Cd".toList ∧
    sentence_case_preserve_braces ("ab:{X}cd".toList) = "Ab:{X}cd".toList := by
  refine ⟨?_, by decide, by decide⟩
  intro a ws post c hws hc
  have hb : ∀ h, (':' :: (ws ++ c :: post)).head? = some h →
      isSpaceChar h = false ∧ h.isAlpha = false := by
    intro h hh
    simp at hh
    subst hh
    exact ⟨by decide, by decide⟩
  rw [colonSub_append_aux a.length a (Nat.le_refl _) _ hb,
    colonSub_match (List.all_eq_true.mp hws) hc]

/-- Witness for Claim C7: a colon-whitespace-letter occurrence inside one
segment is upper-cased. -/
theorem claim_C7_witness :
    colonSub ("x".toList ++ ':' :: (" ".toList ++ 'y' :: "z".toList)) =
      colonSub ("x".toList) ++ ':' :: (" ".toList ++ ('Y' :: colonSub ("z".toList))) :=
  claim_C7_colon_segment_local.1 ("x".toList) (" ".toList) ("z".toList) 'y'
    (by decide) (by decide)

/-! ## Claim C3: pre-existing protection is preserved by every pass -/

theorem list_decomp_at {α : Type} {l : List α} {k : Nat} {p : α} (h : l[k]? = some p) :
    l = l.take k ++ p :: l.drop (k + 1) := by
  have hk : k < l.length := by
    by_contra hk
    rw [List.getElem?_eq_none (Nat.le_of_not_lt hk)] at h
    cases h
  have hp : l[k] = p := by
    have := List.getElem?_eq_getElem hk
    rw [this] at h
    exact Option.some.inj h
  conv_lhs => rw [← List.take_append_drop k l]
  congr 1
  rw [← hp]
  exact (List.getElem_cons_drop l k hk).symm

/-- The `is_first_part` flag left after the Sentence Caser has processed a
list of segments. -/
def scFlagAfter : List (List Char) → Bool → Bool
  | [], b => b
  | p :: ps, b =>
    if isProt p then scFlagAfter ps b
    else if b && (p.map Char.toLower).any Char.isAlpha then scFlagAfter ps false
    else scFlagAfter ps b

theorem scParts_append :
    ∀ (A B : List (List Char)) (b : Bool),
      scParts (A ++ B) b = scParts A b ++ scParts B (scFlagAfter A b) := by
  intro A
  induction A with
  | nil => intro B b; rfl
  | cons p ps ih =>
    intro B b
    by_cases hp : isProt p = true
    · simp only [List.cons_append, scParts, scFlagAfter, hp, if_true, List.append_eq]
      rw [ih B b]
    · have hp2 : isProt p = false := by simpa using hp
      cases hc : (b && (p.map Char.toLower).any Char.isAlpha) with
      | true =>
        simp only [List.cons_append, scParts, scFlagAfter, hp2, Bool.false_eq_true, if_false,
          hc, if_true, List.append_eq]
        rw [ih B false]
      | false =>
        simp only [List.cons_append, scParts, scFlagAfter, hp2, Bool.false_eq_true, if_false,
          hc, List.append_eq]
        rw [ih B b]

/-- Claim C3: a segment already wrapped in a marker pair is emitted verbatim,
in place, by the Entity Protector, the Acronym Protector, and the Sentence
Caser; the surrounding segments are processed independently, so nothing is
re-cased or re-wrapped inside the protected segment. -/
theorem claim_C3_protected_segment_preserved (nlp : List Char → List Ent)
    (text : List Char) (k : Nat) (p : List Char)
    (hk : (split_braces text)[k]? = some p) (hp : isProt p = true) :
    (brace_entities_preserve_existing nlp text =
      (((split_braces text).take k).map
          (fun q => if isProt q then q else brace_entities nlp q)).flatten
        ++ p ++
        (((split_braces text).drop (k + 1)).map
          (fun q => if isProt q then q else brace_entities nlp q)).flatten) ∧
    (protect_acronyms_preserve_braces text =
      (((split_braces text).take k).map (fun q => if isProt q then q else acroSub q)).flatten
        ++ p ++
        (((split_braces text).drop (k + 1)).map
          (fun q => if isProt q then q else acroSub q)).flatten) ∧
    (∃ b : Bool, sentence_case_preserve_braces text =
      (scParts ((split_braces text).take k) true).flatten
        ++ p ++ (scParts ((split_braces text).drop (k + 1)) b).flatten) := by
  have hdec := list_decomp_at hk
  refine ⟨?_, ?_, ?_⟩
  · unfold brace_entities_preserve_existing
    conv_lhs => rw [hdec]
    simp [hp]
  · unfold protect_acronyms_preserve_braces
    conv_lhs => rw [hdec]
    simp [hp]
  · refine ⟨scFlagAfter ((split_braces text).take k) true, ?_⟩
    unfold sentence_case_preserve_braces
    conv_lhs => rw [hdec]
    rw [scParts_append]
    simp only [scParts, hp, if_true]
    simp

/-- Witness for Claim C3 on `"a{B}c"`, whose middle segment is protected. -/
theorem claim_C3_witness :
    (split_braces ("a{B}c".toList))[1]? = some ("{B}".toList) ∧
    isProt ("{B}".toList) = true ∧
    (∃ b : Bool, sentence_case_preserve_braces ("a{B}c".toList) =
      (scParts ((split_braces ("a{B}c".toList)).take 1) true).flatten
        ++ "{B}".toList ++
        (scParts ((split_braces ("a{B}c".toList)).drop 2) b).flatten) := by
  refine ⟨by decide, by decide, ?_⟩
  exact (claim_C3_protected_segment_preserved (fun _ => []) ("a{B}c".toList) 1
    ("{B}".toList) (by decide) (by decide)).2.2

/-! ## Claim C8: totality, empty input, and the changed flag -/

/-- Claim C8: the pipeline is total (the embedding consists of total
functions); on the empty title it returns the empty string with
`changed = false` — given the interface contract of the Entity Span Provider
(spans lie within the text, §6); and for every input the `changed` flag is
true exactly when the output string differs from the input. -/
theorem claim_C8_totality_and_changed_flag (nlp : List Char → List Ent)
    (hnil : ∀ e ∈ nlp [], e.start_char < e.end_char ∧ e.end_char ≤ 0) :
    process_title nlp [] = ([], false) ∧
    ∀ raw : List Char,
      ((process_title nlp raw).2 = true ↔ (process_title nlp raw).1 ≠ raw) := by
  constructor
  · have hn : nlp [] = [] := by
      cases h : nlp [] with
      | nil => rfl
      | cons e l =>
        exfalso
        have he := hnil e (by rw [h]; simp)
        omega
    have hbe : brace_entities nlp [] = [] := by
      simp [brace_entities, hn]
    have hsp : split_braces ([] : List Char) = [[]] := rfl
    have h1 : brace_entities_preserve_existing nlp [] = [] := by
      simp [brace_entities_preserve_existing, hsp, isProt, hbe]
    have h2 : protect_acronyms_preserve_braces [] = [] := by decide
    have h3 : sentence_case_preserve_braces [] = [] := by decide
    simp [process_title, h1, h2, h3]
  · intro raw
    simp only [process_title, ne_eq, decide_eq_true_eq]

/-- Witness for Claim C8 with the trivial provider. -/
theorem claim_C8_witness :
    process_title (fun _ => []) [] = ([], false) ∧
    ((process_title (fun _ => []) ("ab".toList)).2 = true ↔
      (process_title (fun _ => []) ("ab".toList)).1 ≠ "ab".toList) := by
  have h := claim_C8_totality_and_changed_flag (fun _ => []) (by intro e he; simp at he)
  exact ⟨h.1, h.2 ("ab".toList)⟩

/-! ## Claim C10: the protection passes only insert marker characters -/

theorem delBraces_append (x y : List Char) :
    delBraces (x ++ y) = delBraces x ++ delBraces y := by
  simp [delBraces, List.filter_append]

theorem delBraces_cons (c : Char) (x : List Char) :
    delBraces (c :: x) = if c = '{' ∨ c = '}' then delBraces x else c :: delBraces x := by
  simp only [delBraces, List.filter_cons]
  by_cases h : c = '{' ∨ c = '}'
  · rw [if_pos h]
    have : (c == '{' || c == '}') = true := by
      rcases h with h | h <;> simp [h]
    rw [this]
    simp
  · rw [if_neg h]
    push_neg at h
    have : (c == '{' || c == '}') = false := by
      simp [h.1, h.2]
    rw [this]
    simp

theorem pySlice_glue {t : List Char} {i j : Nat} (h : i ≤ j) :
    pySlice t i j ++ t.drop j = t.drop i := by
  unfold pySlice
  conv_rhs => rw [← List.take_append_drop j t]
  rw [List.drop_append_eq_append_drop]
  congr 1
  by_cases hc : i ≤ (t.take j).length
  · have h0 : i - (t.take j).length = 0 := by omega
    rw [h0, List.drop_zero]
  · have hjt : t.length ≤ j := by
      simp only [List.length_take] at hc
      omega
    rw [List.drop_eq_nil_of_le hjt, List.drop_eq_nil_of_le (by simp : ([] : List Char).length ≤ _)]

theorem pySlice_merge {t : List Char} {i j k : Nat} (h1 : i ≤ j) (h2 : j ≤ k) :
    pySlice t i j ++ pySlice t j k = pySlice t i k := by
  have e1 : pySlice t i j = pySlice (t.take k) i j := by
    unfold pySlice
    rw [List.take_take, Nat.min_eq_left h2]
  have e2 : pySlice t j k = (t.take k).drop j := rfl
  have e3 : pySlice t i k = (t.take k).drop i := rfl
  rw [e1, e2, e3]
  exact pySlice_glue (t := t.take k) h1

/-- The gap/ordering discipline of a merged span list: starts are beyond the
previous end, every span is well-oriented. -/
def SpanChain : Nat → List (Nat × Nat) → Prop
  | _, [] => True
  | last, s :: rest => last ≤ s.1 ∧ s.1 ≤ s.2 ∧ SpanChain s.2 rest

theorem delBraces_renderSpans (t : List Char) :
    ∀ (spans : List (Nat × Nat)) (last : Nat), SpanChain last spans →
      delBraces (renderSpans t last spans) = delBraces (t.drop last) := by
  intro spans
  induction spans with
  | nil => intro last _; rfl
  | cons s rest ih =>
    obtain ⟨a, b⟩ := s
    intro last hch
    obtain ⟨h1, h2, h3⟩ := hch
    show delBraces (pySlice t last a ++ ('{' :: (pySlice t a b ++ ['}'])) ++ renderSpans t b rest)
      = _
    rw [delBraces_append, delBraces_append]
    have hmk : delBraces ('{' :: (pySlice t a b ++ ['}'])) = delBraces (pySlice t a b) := by
      rw [delBraces_cons, if_pos (Or.inl rfl), delBraces_append]
      simp [delBraces]
    rw [hmk, ih b h3, ← delBraces_append, ← delBraces_append, pySlice_merge h1 h2,
      pySlice_glue (Nat.le_trans h1 h2)]

theorem mem_insertSpan {x y : Nat × Nat} :
    ∀ {l : List (Nat × Nat)}, x ∈ insertSpan y l → x = y ∨ x ∈ l := by
  intro l
  induction l with
  | nil => intro h; simp [insertSpan] at h; exact Or.inl h
  | cons z zs ih =>
    intro h
    simp only [insertSpan] at h
    by_cases hc : spanLe y z = true
    · rw [if_pos hc] at h
      rcases List.mem_cons.mp h with h | h
      · exact Or.inl h
      · exact Or.inr h
    · rw [if_neg hc] at h
      rcases List.mem_cons.mp h with h | h
      · exact Or.inr (by simp [h])
      · rcases ih h with h | h
        · exact Or.inl h
        · exact Or.inr (by simp [h])

theorem mem_sortSpans {x : Nat × Nat} :
    ∀ {l : List (Nat × Nat)}, x ∈ sortSpans l → x ∈ l := by
  intro l
  induction l with
  | nil => intro h; simp [sortSpans] at h
  | cons z zs ih =>
    intro h
    have : sortSpans (z :: zs) = insertSpan z (sortSpans zs) := rfl
    rw [this] at h
    rcases mem_insertSpan h with h | h
    · simp [h]
    · exact List.mem_cons.mpr (Or.inr (ih h))

theorem mergeLoop_chain :
    ∀ (rest : List (Nat × Nat)) (cur : Nat × Nat) (last : Nat),
      last ≤ cur.1 → cur.1 ≤ cur.2 → (∀ s ∈ rest, s.1 ≤ s.2) →
      SpanChain last (mergeLoop cur rest) := by
  intro rest
  induction rest with
  | nil => intro cur last h1 h2 _; exact ⟨h1, h2, trivial⟩
  | cons s rest ih =>
    obtain ⟨a, b⟩ := s
    intro cur last h1 h2 hall
    show SpanChain last
      (if cur.2 < a then cur :: mergeLoop (a, b) rest else mergeLoop (cur.1, max cur.2 b) rest)
    by_cases hc : cur.2 < a
    · rw [if_pos hc]
      refine ⟨h1, h2, ih (a, b) cur.2 (Nat.le_of_lt hc) (hall (a, b) (by simp))
        (fun s hs => hall s (by simp [hs]))⟩
    · rw [if_neg hc]
      exact ih (cur.1, max cur.2 b) last h1 (Nat.le_trans h2 (Nat.le_max_left _ _))
        (fun s hs => hall s (by simp [hs]))

theorem mergeSpans_chain {l : List (Nat × Nat)} (h : ∀ s ∈ l, s.1 ≤ s.2) :
    SpanChain 0 (mergeSpans l) := by
  cases l with
  | nil => trivial
  | cons s rest =>
    exact mergeLoop_chain rest s 0 (Nat.zero_le _) (h s (by simp))
      (fun x hx => h x (by simp [hx]))

theorem delBraces_wrapToken (run : List Char) :
    delBraces (wrapToken run) = delBraces run := by
  unfold wrapToken
  by_cases h : acronymQualifies run = true
  · rw [if_pos h, delBraces_cons, if_pos (Or.inl rfl), delBraces_append]
    simp [delBraces]
  · rw [if_neg h]

theorem delBraces_acroSub_aux :
    ∀ (n : Nat) (p : List Char), p.length ≤ n → delBraces (acroSub p) = delBraces p := by
  intro n
  induction n with
  | zero =>
    intro p hl
    have : p = [] := List.length_eq_zero.mp (Nat.le_zero.mp hl)
    subst this
    rfl
  | succ n ih =>
    intro p hl
    cases p with
    | nil => rfl
    | cons c cs =>
      cases hc : isWordChar c with
      | false =>
        rw [acroSub_nonword hc, delBraces_cons, delBraces_cons,
          ih cs (by simp only [List.length_cons] at hl; omega)]
      | true =>
        rw [acroSub_word hc, delBraces_append, delBraces_wrapToken,
          ih (cs.dropWhile isWordChar) (by
            have := length_dropWhile_le isWordChar cs
            simp only [List.length_cons] at hl
            omega)]
        have : (c :: cs.takeWhile isWordChar) ++ cs.dropWhile isWordChar = c :: cs := by
          rw [List.cons_append, List.takeWhile_append_dropWhile]
        rw [← delBraces_append, this]

/-- Claim C10: deleting every marker character from the output of
`brace_entities` (for in-bounds provider spans) or of
`protect_acronyms_preserve_braces` yields exactly the result of deleting
every marker character from the input: the passes only insert markers. -/
theorem claim_C10_passes_only_insert_markers (nlp : List Char → List Ent)
    (text chunk : List Char)
    (hb : ∀ e ∈ nlp text, e.start_char < e.end_char ∧ e.end_char ≤ text.length) :
    delBraces (brace_entities nlp text) = delBraces text ∧
    delBraces (protect_acronyms_preserve_braces chunk) = delBraces chunk := by
  constructor
  · unfold brace_entities
    by_cases he : (((nlp text).filter (fun e => ENTITY_LABELS.contains e.label)).map
        (fun e => (e.start_char, e.end_char))).isEmpty = true
    · rw [if_pos he]
    · rw [if_neg he]
      have hmem : ∀ s ∈ sortSpans (((nlp text).filter
          (fun e => ENTITY_LABELS.contains e.label)).map
          (fun e => (e.start_char, e.end_char))), s.1 ≤ s.2 := by
        intro s hs
        have hs2 := mem_sortSpans hs
        simp only [List.mem_map, List.mem_filter] at hs2
        obtain ⟨e, ⟨hmem, _⟩, hse⟩ := hs2
        have := (hb e hmem).1
        rw [← hse]
        exact Nat.le_of_lt this
      have := delBraces_renderSpans text
        (mergeSpans (sortSpans _)) 0 (mergeSpans_chain hmem)
      rw [this, List.drop_zero]
  · unfold protect_acronyms_preserve_braces
    have hparts : ∀ parts : List (List Char),
        delBraces ((parts.map (fun q => if isProt q then q else acroSub q)).flatten)
          = delBraces parts.flatten := by
      intro parts
      induction parts with
      | nil => rfl
      | cons q qs ihq =>
        simp only [List.map_cons, List.flatten_cons, delBraces_append, ihq]
        by_cases hq : isProt q = true
        · rw [if_pos hq]
        · rw [if_neg hq, delBraces_acroSub_aux q.length q (Nat.le_refl _)]
    rw [hparts, split_braces_flatten]

/-- Witness for Claim C10 with a concrete in-bounds provider and inputs. -/
theorem claim_C10_witness :
    delBraces (brace_entities provAdjacent ("abcde".toList)) = delBraces ("abcde".toList) ∧
    delBraces (protect_acronyms_preserve_braces ("a NASA {x} 2nd".toList))
      = delBraces ("a NASA {x} 2nd".toList) :=
  claim_C10_passes_only_insert_markers provAdjacent ("abcde".toList)
    ("a NASA {x} 2nd".toList) (by decide)

/-! ## Claim C4: the first-letter rule of the Sentence Caser -/

/-- Claim C4 counterexample: on the title `"9am"` (one unprotected segment,
first alphabetic character `'a'` preceded by the non-alphabetic `'9'`) the
Sentence Caser changes nothing — the first-letter regex skips only
non-alphanumeric characters, so a leading digit blocks the rule and the
claimed upper-casing of `'a'` does not happen. -/
theorem claim_C4_counterexample :
    sentence_case_preserve_braces ("9am".toList) = "9am".toList ∧
    ("9am".toList)[1]? = some 'a' ∧ Char.isUpper 'a' = false := by
  decide

theorem isAlphanum_false_parts {d : Char} (h : d.isAlphanum = false) :
    d.isAlpha = false ∧ d.isDigit = false := by
  simp only [Char.isAlphanum, Bool.or_eq_false_iff] at h
  exact h

theorem firstCapSub_eq {s pre cs : List Char} {c : Char} (hs : s = pre ++ c :: cs)
    (hpre : ∀ d ∈ pre, d.isAlphanum = false) (hc : c.isAlpha = true) :
    firstCapSub s = pre ++ (Char.toUpper c :: cs) := by
  have hpre2 : ∀ d ∈ pre, (!d.isAlphanum) = true := by
    intro d hd
    simp [hpre d hd]
  obtain ⟨h1, h2⟩ := takeWhile_append_of_all hpre2 (c :: cs)
  have hcn : (!c.isAlphanum) = false := by
    simp [Char.isAlphanum, hc]
  have hdw : s.dropWhile (fun d => !d.isAlphanum) = c :: cs := by
    rw [hs, h2]
    simp [List.dropWhile_cons, hcn]
  have htw : s.takeWhile (fun d => !d.isAlphanum) = pre := by
    rw [hs, h1]
    simp [List.takeWhile_cons, hcn]
  unfold firstCapSub
  rw [hdw, htw]
  simp [hc]

theorem colonSub_nonalnum_prefix :
    ∀ (pre : List Char) (c : Char) (cs : List Char),
      (∀ d ∈ pre, d.isAlphanum = false) → Char.toUpper c = c → c.isAlpha = true →
      colonSub (pre ++ c :: cs) = pre ++ (c :: colonSub cs) := by
  intro pre
  induction pre with
  | nil =>
    intro c cs _ _ hc
    rw [List.nil_append, colonSub_ne (isAlpha_ne_colon hc)]
    rfl
  | cons d pre' ih =>
    intro c cs hpre hup hc
    by_cases hd : d = ':'
    · subst hd
      by_cases hall : ∀ e ∈ pre', isSpaceChar e = true
      · obtain ⟨h1, h2⟩ := takeWhile_append_of_all hall (c :: cs)
        have hcs : isSpaceChar c = false := isAlpha_not_space hc
        have hdw : (pre' ++ c :: cs).dropWhile isSpaceChar = c :: cs := by
          rw [h2]
          simp [List.dropWhile_cons, hcs]
        have htw : (pre' ++ c :: cs).takeWhile isSpaceChar = pre' := by
          rw [h1]
          simp [List.takeWhile_cons, hcs]
        rw [List.cons_append, colonSub_colon_alpha hdw hc, htw, hup]
        simp
      · have hne : pre'.dropWhile isSpaceChar ≠ [] := by
          intro hnil
          exact hall (List.dropWhile_eq_nil_iff.mp hnil)
        obtain ⟨e, es, hees⟩ : ∃ e es, pre'.dropWhile isSpaceChar = e :: es := by
          cases hdd : pre'.dropWhile isSpaceChar with
          | nil => exact absurd hdd hne
          | cons e es => exact ⟨e, es, rfl⟩
        obtain ⟨h1, h2⟩ := dropWhile_append_of_ne_nil hne (c :: cs)
        rw [hees] at h2
        have hemem : e ∈ pre' := (List.dropWhile_sublist isSpaceChar).mem (by rw [hees]; simp)
        have hea : e.isAlpha = false :=
          (isAlphanum_false_parts (hpre e (by simp [hemem]))).1
        rw [List.cons_append, colonSub_colon_nonalpha (by rw [h2]; rfl) hea,
          ih c cs (fun d hd => hpre d (by simp [hd])) hup hc]
        rfl
    · rw [List.cons_append, colonSub_ne hd, ih c cs (fun x hx => hpre x (by simp [hx])) hup hc]
      rfl

theorem any_isAlpha_map_toLower (q : List Char) :
    (q.map Char.toLower).any Char.isAlpha = q.any Char.isAlpha := by
  induction q with
  | nil => rfl
  | cons c cs ih =>
    simp only [List.map_cons, List.any_cons, isAlpha_toLower, ih]

theorem scParts_prefix_no_alpha :
    ∀ A : List (List Char),
      (∀ q ∈ A, isProt q = true ∨ q.any Char.isAlpha = false) →
      scParts A true = A.map (fun q => if isProt q then q else colonSub (q.map Char.toLower)) ∧
      scFlagAfter A true = true := by
  intro A
  induction A with
  | nil => intro _; exact ⟨rfl, rfl⟩
  | cons q qs ih =>
    intro h
    obtain ⟨ih1, ih2⟩ := ih (fun x hx => h x (by simp [hx]))
    rcases h q (by simp) with hq | hq
    · constructor
      · simp only [scParts, hq, if_true, List.map_cons, ih1]
      · simp only [scFlagAfter, hq, if_true, ih2]
    · have hqa : (q.map Char.toLower).any Char.isAlpha = false := by
        rw [any_isAlpha_map_toLower]
        exact hq
      by_cases hp : isProt q = true
      · constructor
        · simp only [scParts, hp, if_true, List.map_cons, ih1]
        · simp only [scFlagAfter, hp, if_true, ih2]
      · have hp2 : isProt q = false := by simpa using hp
        constructor
        · simp only [scParts, hp2, Bool.false_eq_true, if_false, hqa, Bool.and_false,
            List.map_cons, ih1]
        · simp only [scFlagAfter, hp2, Bool.false_eq_true, if_false, hqa, Bool.and_false, ih2]

/-- Claim C4 (amended): the first-letter rule fires on the first unprotected
segment containing a letter, at most once over the whole title; it preserves
the leading run of characters that are neither letters nor digits (not: all
non-alphabetic characters — a leading digit blocks the rule, see the
counterexample) and upper-cases the letter that follows that run; every
later segment is processed with the flag already consumed. -/
theorem claim_C4_amended (text : List Char) (k : Nat) (p pre cs : List Char) (c : Char)
    (hk : (split_braces text)[k]? = some p)
    (hnp : isProt p = false)
    (hprev : ∀ q ∈ (split_braces text).take k,
        isProt q = true ∨ q.any Char.isAlpha = false)
    (hdec : p.map Char.toLower = pre ++ c :: cs)
    (hpre : ∀ d ∈ pre, d.isAlphanum = false)
    (hc : c.isAlpha = true) :
    sentence_case_preserve_braces text =
      (((split_braces text).take k).map
        (fun q => if isProt q then q else colonSub (q.map Char.toLower))).flatten
      ++ (pre ++ (Char.toUpper c :: colonSub cs))
      ++ (scParts ((split_braces text).drop (k + 1)) false).flatten := by
  have hdecomp := list_decomp_at hk
  obtain ⟨hA, hflag⟩ := scParts_prefix_no_alpha ((split_braces text).take k) hprev
  have hany : (p.map Char.toLower).any Char.isAlpha = true := by
    rw [hdec]
    simp [hc]
  unfold sentence_case_preserve_braces
  conv_lhs => rw [hdecomp]
  rw [scParts_append, hflag, hA]
  have hhead : scParts (p :: (split_braces text).drop (k + 1)) true =
      colonSub (firstCapSub (p.map Char.toLower))
        :: scParts ((split_braces text).drop (k + 1)) false := by
    simp only [scParts, hnp, Bool.false_eq_true, if_false, hany, Bool.and_true, if_true]
  rw [hhead, firstCapSub_eq hdec hpre hc,
    colonSub_nonalnum_prefix pre (Char.toUpper c) cs hpre (toUpper_toUpper c)
      (by rw [isAlpha_toUpper]; exact hc)]
  simp

/-- Witness for the amended Claim C4 on `"- {HI} ab: cd"`: the first two
segments carry no letters, the rule fires on the third, skipping the leading
space and upper-casing the `a`. -/
theorem claim_C4_amended_witness :
    sentence_case_preserve_braces ("- {HI} ab: cd".toList) =
      (((split_braces ("- {HI} ab: cd".toList)).take 2).map
        (fun q => if isProt q then q else colonSub (q.map Char.toLower))).flatten
      ++ (" ".toList ++ (Char.toUpper 'a' :: colonSub ("b: cd".toList)))
      ++ (scParts ((split_braces ("- {HI} ab: cd".toList)).drop 3) false).flatten :=
  claim_C4_amended ("- {HI} ab: cd".toList) 2 (" ab: cd".toList) (" ".toList)
    ("b: cd".toList) 'a' (by decide) (by decide) (by decide) (by decide) (by decide)
    (by decide)

/-! ## Claim C1: idempotence of the pipeline

The pipeline hypotheses of the claim say the second run's entity pass and
acronym pass make no change on the already-protected output; what remains to
prove is that the Sentence Caser is idempotent.  The key facts: its output
has, position for position, the same marker classification and the same
per-segment lengths as its input (case mapping never creates or destroys a
marker), so re-splitting its output reproduces exactly the processed segment
list; and lower-casing its output recovers the lower-casing of its input, so
the second pass recomputes every segment identically. -/

theorem bc_map_toLower (q : List Char) :
    (q.map Char.toLower).map braceClass = q.map braceClass := by
  induction q with
  | nil => rfl
  | cons c cs ih => simp only [List.map_cons, braceClass_toLower, ih]

theorem lowerL_lowerL (q : List Char) :
    (q.map Char.toLower).map Char.toLower = q.map Char.toLower := by
  induction q with
  | nil => rfl
  | cons c cs ih => simp only [List.map_cons, toLower_toLower, ih]

theorem firstCapSub_split {s : List Char} :
    firstCapSub s = s ∨
    ∃ pre c cs, s = pre ++ c :: cs ∧ c.isAlpha = true ∧
      firstCapSub s = pre ++ (Char.toUpper c :: cs) := by
  unfold firstCapSub
  cases hdw : s.dropWhile (fun d => !d.isAlphanum) with
  | nil => left; rfl
  | cons c cs =>
    by_cases hc : c.isAlpha = true
    · right
      refine ⟨s.takeWhile (fun d => !d.isAlphanum), c, cs, ?_, hc, by simp [hc]⟩
      conv_lhs => rw [← List.takeWhile_append_dropWhile (fun d => !d.isAlphanum) s, hdw]
    · left
      have hc2 : c.isAlpha = false := by simpa using hc
      simp only [hc2, Bool.false_eq_true, if_false]

theorem bc_firstCapSub (s : List Char) :
    (firstCapSub s).map braceClass = s.map braceClass ∧
    (firstCapSub s).length = s.length := by
  rcases firstCapSub_split (s := s) with h | ⟨pre, c, cs, hs, _, h⟩
  · rw [h]; exact ⟨rfl, rfl⟩
  · rw [h, hs]
    constructor
    · simp [braceClass_toUpper]
    · simp

theorem lowerL_firstCapSub (s : List Char) :
    (firstCapSub s).map Char.toLower = s.map Char.toLower := by
  rcases firstCapSub_split (s := s) with h | ⟨pre, c, cs, hs, _, h⟩
  · rw [h]
  · rw [h, hs]
    simp [toLower_toUpper]

theorem bc_colonSub_aux :
    ∀ (n : Nat) (s : List Char), s.length ≤ n →
      (colonSub s).map braceClass = s.map braceClass ∧
      (colonSub s).length = s.length ∧
      (colonSub s).map Char.toLower = s.map Char.toLower := by
  intro n
  induction n with
  | zero =>
    intro s hl
    have : s = [] := List.length_eq_zero.mp (Nat.le_zero.mp hl)
    subst this
    exact ⟨rfl, rfl, rfl⟩
  | succ n ih =>
    intro s hl
    cases s with
    | nil => exact ⟨rfl, rfl, rfl⟩
    | cons c cs =>
      by_cases hc : c = ':'
      · subst hc
        cases hdw : cs.dropWhile isSpaceChar with
        | nil =>
          rw [colonSub_colon_nil hdw]
          obtain ⟨g1, g2, g3⟩ := ih cs (by simp only [List.length_cons] at hl; omega)
          simp [g1, g2, g3]
        | cons d ds =>
          cases hda : d.isAlpha with
          | false =>
            rw [colonSub_colon_nonalpha hdw hda]
            obtain ⟨g1, g2, g3⟩ := ih cs (by simp only [List.length_cons] at hl; omega)
            simp [g1, g2, g3]
          | true =>
            rw [colonSub_colon_alpha hdw hda]
            have hcs : cs = cs.takeWhile isSpaceChar ++ d :: ds := by
              conv_lhs => rw [← List.takeWhile_append_dropWhile isSpaceChar cs, hdw]
            have hds : ds.length ≤ n := by
              have h1 := length_dropWhile_le isSpaceChar cs
              rw [hdw] at h1
              simp only [List.length_cons] at h1 hl
              omega
            obtain ⟨g1, g2, g3⟩ := ih ds hds
            constructor
            · conv_rhs => rw [hcs]
              simp [braceClass_toUpper, g1]
            constructor
            · conv_rhs => rw [hcs]
              simp only [List.length_cons, List.length_append, g2]
            · conv_rhs => rw [hcs]
              simp [toLower_toUpper, g3]
      · rw [colonSub_ne hc]
        obtain ⟨g1, g2, g3⟩ := ih cs (by simp only [List.length_cons] at hl; omega)
        simp [g1, g2, g3]

theorem bc_colonSub (s : List Char) :
    (colonSub s).map braceClass = s.map braceClass :=
  (bc_colonSub_aux s.length s (Nat.le_refl _)).1

theorem length_colonSub (s : List Char) : (colonSub s).length = s.length :=
  (bc_colonSub_aux s.length s (Nat.le_refl _)).2.1

theorem lowerL_colonSub (s : List Char) :
    (colonSub s).map Char.toLower = s.map Char.toLower :=
  (bc_colonSub_aux s.length s (Nat.le_refl _)).2.2

theorem beq_lbrace_of_bc {a b : Char} (h : braceClass a = braceClass b) :
    (a == '{') = (b == '{') := by
  by_cases ha : a = '{'
  · subst ha
    have : b = '{' := braceClass_eq_zero (by rw [← h]; rfl)
    subst this
    rfl
  · have hb : ¬(b = '{') := by
      intro hb
      subst hb
      exact ha (braceClass_eq_zero (by rw [h]; rfl))
    simp [ha, hb]

theorem beq_rbrace_of_bc {a b : Char} (h : braceClass a = braceClass b) :
    (a == '}') = (b == '}') := by
  by_cases ha : a = '}'
  · subst ha
    have : b = '}' := braceClass_eq_one (by rw [← h]; decide)
    subst this
    rfl
  · have hb : ¬(b = '}') := by
      intro hb
      subst hb
      exact ha (braceClass_eq_one (by rw [h]; decide))
    simp [ha, hb]

theorem isProt_eq_of_bc {A B : List Char} (h : A.map braceClass = B.map braceClass) :
    isProt A = isProt B := by
  have hh : A.head?.map braceClass = B.head?.map braceClass := by
    rw [← List.head?_map, ← List.head?_map, h]
  have hl : A.getLast?.map braceClass = B.getLast?.map braceClass := by
    rw [← List.getLast?_map, ← List.getLast?_map, h]
  unfold isProt
  have e1 : (A.head? == some '{') = (B.head? == some '{') := by
    cases hA : A.head? with
    | none =>
      cases hB : B.head? with
      | none => rfl
      | some bb => rw [hA, hB] at hh; cases hh
    | some aa =>
      cases hB : B.head? with
      | none => rw [hA, hB] at hh; cases hh
      | some bb =>
        rw [hA, hB] at hh
        simp only [Option.map_some'] at hh
        have hbc := beq_lbrace_of_bc (Option.some.inj hh)
        simp [hbc]
  have e2 : (A.getLast? == some '}') = (B.getLast? == some '}') := by
    cases hA : A.getLast? with
    | none =>
      cases hB : B.getLast? with
      | none => rfl
      | some bb => rw [hA, hB] at hl; cases hl
    | some aa =>
      cases hB : B.getLast? with
      | none => rw [hA, hB] at hl; cases hl
      | some bb =>
        rw [hA, hB] at hl
        simp only [Option.map_some'] at hl
        have hbc := beq_rbrace_of_bc (Option.some.inj hl)
        simp [hbc]
  rw [e1, e2]

/-- The Sentence Caser's output segments have, one for one, the same marker
classification and the same length as its input segments. -/
theorem scParts_bc :
    ∀ (parts : List (List Char)) (b : Bool),
      (scParts parts b).map (List.map braceClass) = parts.map (List.map braceClass) ∧
      (scParts parts b).map List.length = parts.map List.length := by
  intro parts
  induction parts with
  | nil => intro b; exact ⟨rfl, rfl⟩
  | cons p ps ih =>
    intro b
    by_cases hp : isProt p = true
    · obtain ⟨ih1, ih2⟩ := ih b
      simp [scParts, hp, ih1, ih2]
    · have hp2 : isProt p = false := by simpa using hp
      have hq1 : ∀ s : List Char,
          (colonSub (firstCapSub s)).map braceClass = s.map braceClass := by
        intro s
        rw [bc_colonSub, (bc_firstCapSub s).1]
      have hq2 : ∀ s : List Char, (colonSub (firstCapSub s)).length = s.length := by
        intro s
        rw [length_colonSub, (bc_firstCapSub s).2]
      cases hc : (b && (p.map Char.toLower).any Char.isAlpha) with
      | true =>
        obtain ⟨ih1, ih2⟩ := ih false
        simp only [scParts, hp2, Bool.false_eq_true, if_false, hc, if_true, List.map_cons,
          ih1, ih2]
        constructor
        · rw [hq1, bc_map_toLower]
        · rw [hq2]
          simp
      | false =>
        obtain ⟨ih1, ih2⟩ := ih b
        simp only [scParts, hp2, Bool.false_eq_true, if_false, hc, List.map_cons, ih1, ih2]
        constructor
        · rw [bc_colonSub, bc_map_toLower]
        · rw [length_colonSub]
          simp

/-- Re-splitting the Sentence Caser's output yields exactly its processed
segment list. -/
theorem split_sentence_case (x : List Char) :
    split_braces (sentence_case_preserve_braces x) = scParts (split_braces x) true := by
  have hbc : (sentence_case_preserve_braces x).map braceClass = x.map braceClass := by
    unfold sentence_case_preserve_braces
    rw [List.map_flatten, (scParts_bc (split_braces x) true).1, ← List.map_flatten,
      split_braces_flatten]
  have hlens : (split_braces (sentence_case_preserve_braces x)).map List.length =
      (scParts (split_braces x) true).map List.length := by
    rw [split_braces_shape hbc, (scParts_bc (split_braces x) true).2]
  refine flatten_eq_of_lengths _ _ hlens ?_
  rw [split_braces_flatten]
  rfl

theorem scParts_cons_prot {p : List Char} {ps : List (List Char)} {b : Bool}
    (h : isProt p = true) : scParts (p :: ps) b = p :: scParts ps b := by
  simp [scParts, h]

theorem scParts_cons_first {p : List Char} {ps : List (List Char)} {b : Bool}
    (h : isProt p = false) (hc : (b && (p.map Char.toLower).any Char.isAlpha) = true) :
    scParts (p :: ps) b =
      colonSub (firstCapSub (p.map Char.toLower)) :: scParts ps false := by
  unfold scParts
  rw [h]
  simp only [Bool.false_eq_true, if_false]
  rw [hc]
  rw [if_pos rfl]
  conv_rhs => rw [← scParts.eq_def]

theorem scParts_cons_rest {p : List Char} {ps : List (List Char)} {b : Bool}
    (h : isProt p = false) (hc : (b && (p.map Char.toLower).any Char.isAlpha) = false) :
    scParts (p :: ps) b = colonSub (p.map Char.toLower) :: scParts ps b := by
  unfold scParts
  rw [h]
  simp only [Bool.false_eq_true, if_false]
  rw [hc]
  simp only [Bool.false_eq_true, if_false]
  conv_rhs => rw [← scParts.eq_def]

/-- Running the Sentence Caser's segment loop on its own output changes
nothing: lower-casing the processed segment recovers the lower-casing of the
original, so each segment is recomputed identically, and the flag evolves
identically. -/
theorem scParts_scParts :
    ∀ (parts : List (List Char)) (b : Bool),
      scParts (scParts parts b) b = scParts parts b := by
  intro parts
  induction parts with
  | nil => intro b; rfl
  | cons p ps ih =>
    intro b
    by_cases hp : isProt p = true
    · rw [scParts_cons_prot hp, scParts_cons_prot hp, ih b]
    · have hp2 : isProt p = false := by simpa using hp
      cases hc : (b && (p.map Char.toLower).any Char.isAlpha) with
      | true =>
        rw [scParts_cons_first hp2 hc]
        have hqlow : (colonSub (firstCapSub (p.map Char.toLower))).map Char.toLower
            = p.map Char.toLower := by
          rw [lowerL_colonSub, lowerL_firstCapSub, lowerL_lowerL]
        have hqbc : (colonSub (firstCapSub (p.map Char.toLower))).map braceClass
            = p.map braceClass := by
          rw [bc_colonSub, (bc_firstCapSub _).1, bc_map_toLower]
        have hqp : isProt (colonSub (firstCapSub (p.map Char.toLower))) = false := by
          rw [isProt_eq_of_bc hqbc]
          exact hp2
        rw [scParts_cons_first hqp (by rw [hqlow]; exact hc), hqlow, ih false]
      | false =>
        rw [scParts_cons_rest hp2 hc]
        have hqlow : (colonSub (p.map Char.toLower)).map Char.toLower
            = p.map Char.toLower := by
          rw [lowerL_colonSub, lowerL_lowerL]
        have hqbc : (colonSub (p.map Char.toLower)).map braceClass = p.map braceClass := by
          rw [bc_colonSub, bc_map_toLower]
        have hqp : isProt (colonSub (p.map Char.toLower)) = false := by
          rw [isProt_eq_of_bc hqbc]
          exact hp2
        rw [scParts_cons_rest hqp (by rw [hqlow]; exact hc), hqlow, ih b]

/-- The Sentence Caser is idempotent. -/
theorem sentence_case_idem (x : List Char) :
    sentence_case_preserve_braces (sentence_case_preserve_braces x) =
      sentence_case_preserve_braces x := by
  show (scParts (split_braces (sentence_case_preserve_braces x)) true).flatten = _
  rw [split_sentence_case, scParts_scParts]
  rfl

/-- Claim C1: when entity and acronym detection are stable on the output of
`process_title` — running the entity pass or the acronym pass on that output
changes nothing, i.e. the provider yields no new spans there and no token is
re-protected — then `process_title` applied to its own output returns the
same string. -/
theorem claim_C1_process_title_idempotent (nlp : List Char → List Ent) (t : List Char)
    (h1 : brace_entities_preserve_existing nlp (process_title nlp t).1
      = (process_title nlp t).1)
    (h2 : protect_acronyms_preserve_braces (process_title nlp t).1
      = (process_title nlp t).1) :
    (process_title nlp (process_title nlp t).1).1 = (process_title nlp t).1 := by
  have key : ∀ raw : List Char, (process_title nlp raw).1
      = sentence_case_preserve_braces (protect_acronyms_preserve_braces
        (brace_entities_preserve_existing nlp raw)) := fun _ => rfl
  rw [key ((process_title nlp t).1), h1, h2, key t, sentence_case_idem]

/-- Witness for Claim C1 with the trivial provider on `"ab"`: the pipeline
output is `"Ab"`, on which both protection passes are the identity. -/
theorem claim_C1_witness :
    brace_entities_preserve_existing (fun _ => []) (process_title (fun _ => []) ("ab".toList)).1
        = (process_title (fun _ => []) ("ab".toList)).1 ∧
    protect_acronyms_preserve_braces (process_title (fun _ => []) ("ab".toList)).1
        = (process_title (fun _ => []) ("ab".toList)).1 ∧
    (process_title (fun _ => []) (process_title (fun _ => []) ("ab".toList)).1).1
        = (process_title (fun _ => []) ("ab".toList)).1 :=
  ⟨by decide, by decide,
    claim_C1_process_title_idempotent (fun _ => []) ("ab".toList) (by decide) (by decide)⟩

/-- Witness for Claim C6: splitting at a non-word boundary and wrapping a
concrete qualifying token. -/
theorem claim_C6_witness :
    acroSub ("x ".toList ++ "AB".toList) = acroSub ("x ".toList) ++ acroSub ("AB".toList) ∧
    acroSub ("NASA".toList ++ " x".toList) =
      (if ("NASA".toList.all isUpperDigit && decide (2 ≤ "NASA".toList.length))
          || "NASA".toList.any Char.isDigit
        then '{' :: ("NASA".toList ++ ['}']) else "NASA".toList) ++ acroSub (" x".toList) := by
  constructor
  · apply claim_C6_acronym_tokens.1
    intro c hc
    have h2 : ("x ".toList).getLast? = some ' ' := by decide
    rw [h2] at hc
    rw [← Option.some.inj hc]
    decide
  · apply claim_C6_acronym_tokens.2.1
    · decide
    · decide
    · intro c hc
      have h2 : (" x".toList).head? = some ' ' := by decide
      rw [h2] at hc
      rw [← Option.some.inj hc]
      decide
